import Mathlib

/-!
Verification of the Structural Copy & Merge module
(`src/01-python-foundation/01-modern-python/01-fundamentals/components/copy_utils_solution.py`).

Two complementary shallow embeddings are used, both translated from the source:

* a pure value model: Python dictionaries become insertion-ordered association
  lists `List (Key × Value)` (keys unique in any real dict), Python lists become
  `List Value`, and the module's functions become pure Lean functions on these.
  This settles the functional claims about `deep_merge_dicts`, `merge_dicts`,
  `copy_dict_with_override` and `freeze_dict`.

* an explicit heap model: containers live in an address-indexed heap, values are
  either immediate scalars or references, and the copy operations become heap
  transformers that allocate and store.  This settles the aliasing/mutation
  claims (which keys on object identity, invisible in the pure model).
-/

namespace CopyUtils

/-- Python dictionary keys used by this module: integers or strings.
(Booleans are excluded as keys; Python treats `True == 1`, which no claim
exercises.)  Cross-type keys are equal-comparable but not order-comparable,
exactly as in Python 3. -/
inductive Key where
  | kInt : Int → Key
  | kStr : String → Key
deriving DecidableEq, Repr

/-- Pure structured values: scalars, lists and dictionaries, mirroring the
"Structured Value" data model of the module.  Dictionaries are
insertion-ordered association lists, as in Python 3.7+. -/
inductive Value where
  | vInt : Int → Value
  | vStr : String → Value
  | vBool : Bool → Value
  | vNone : Value
  | vList : List Value → Value
  | vDict : List (Key × Value) → Value
deriving Repr

/-- `isDict` mirrors Python's `isinstance(v, dict)`. -/
def Value.isDict : Value → Bool
  | .vDict _ => true
  | _ => false

mutual

/-- Structural (decidable) equality on values; `deriving` cannot handle the
nested occurrences, so the instance is written out. -/
def valueDecEq : (a b : Value) → Decidable (a = b)
  | .vInt x, .vInt y =>
      if h : x = y then .isTrue (by rw [h]) else .isFalse (fun hh => h (by cases hh; rfl))
  | .vStr x, .vStr y =>
      if h : x = y then .isTrue (by rw [h]) else .isFalse (fun hh => h (by cases hh; rfl))
  | .vBool x, .vBool y =>
      if h : x = y then .isTrue (by rw [h]) else .isFalse (fun hh => h (by cases hh; rfl))
  | .vNone, .vNone => .isTrue rfl
  | .vList xs, .vList ys =>
      match valueListDecEq xs ys with
      | .isTrue h => .isTrue (by rw [h])
      | .isFalse h => .isFalse (fun hh => h (by cases hh; rfl))
  | .vDict xs, .vDict ys =>
      match valueEntriesDecEq xs ys with
      | .isTrue h => .isTrue (by rw [h])
      | .isFalse h => .isFalse (fun hh => h (by cases hh; rfl))
  | .vInt _, .vStr _ => .isFalse (fun h => Value.noConfusion h)
  | .vInt _, .vBool _ => .isFalse (fun h => Value.noConfusion h)
  | .vInt _, .vNone => .isFalse (fun h => Value.noConfusion h)
  | .vInt _, .vList _ => .isFalse (fun h => Value.noConfusion h)
  | .vInt _, .vDict _ => .isFalse (fun h => Value.noConfusion h)
  | .vStr _, .vInt _ => .isFalse (fun h => Value.noConfusion h)
  | .vStr _, .vBool _ => .isFalse (fun h => Value.noConfusion h)
  | .vStr _, .vNone => .isFalse (fun h => Value.noConfusion h)
  | .vStr _, .vList _ => .isFalse (fun h => Value.noConfusion h)
  | .vStr _, .vDict _ => .isFalse (fun h => Value.noConfusion h)
  | .vBool _, .vInt _ => .isFalse (fun h => Value.noConfusion h)
  | .vBool _, .vStr _ => .isFalse (fun h => Value.noConfusion h)
  | .vBool _, .vNone => .isFalse (fun h => Value.noConfusion h)
  | .vBool _, .vList _ => .isFalse (fun h => Value.noConfusion h)
  | .vBool _, .vDict _ => .isFalse (fun h => Value.noConfusion h)
  | .vNone, .vInt _ => .isFalse (fun h => Value.noConfusion h)
  | .vNone, .vStr _ => .isFalse (fun h => Value.noConfusion h)
  | .vNone, .vBool _ => .isFalse (fun h => Value.noConfusion h)
  | .vNone, .vList _ => .isFalse (fun h => Value.noConfusion h)
  | .vNone, .vDict _ => .isFalse (fun h => Value.noConfusion h)
  | .vList _, .vInt _ => .isFalse (fun h => Value.noConfusion h)
  | .vList _, .vStr _ => .isFalse (fun h => Value.noConfusion h)
  | .vList _, .vBool _ => .isFalse (fun h => Value.noConfusion h)
  | .vList _, .vNone => .isFalse (fun h => Value.noConfusion h)
  | .vList _, .vDict _ => .isFalse (fun h => Value.noConfusion h)
  | .vDict _, .vInt _ => .isFalse (fun h => Value.noConfusion h)
  | .vDict _, .vStr _ => .isFalse (fun h => Value.noConfusion h)
  | .vDict _, .vBool _ => .isFalse (fun h => Value.noConfusion h)
  | .vDict _, .vNone => .isFalse (fun h => Value.noConfusion h)
  | .vDict _, .vList _ => .isFalse (fun h => Value.noConfusion h)

def valueListDecEq : (a b : List Value) → Decidable (a = b)
  | [], [] => .isTrue rfl
  | [], _ :: _ => .isFalse (fun h => List.noConfusion h)
  | _ :: _, [] => .isFalse (fun h => List.noConfusion h)
  | x :: xs, y :: ys =>
      match valueDecEq x y with
      | .isFalse h => .isFalse (fun hh => by cases hh; exact h rfl)
      | .isTrue h1 =>
        match valueListDecEq xs ys with
        | .isTrue h2 => .isTrue (by rw [h1, h2])
        | .isFalse h2 => .isFalse (fun hh => by cases hh; exact h2 rfl)

def valueEntriesDecEq : (a b : List (Key × Value)) → Decidable (a = b)
  | [], [] => .isTrue rfl
  | [], _ :: _ => .isFalse (fun h => List.noConfusion h)
  | _ :: _, [] => .isFalse (fun h => List.noConfusion h)
  | (k1, v1) :: xs, (k2, v2) :: ys =>
      if hk : k1 = k2 then
        match valueDecEq v1 v2 with
        | .isFalse h => .isFalse (fun hh => by cases hh; exact h rfl)
        | .isTrue h1 =>
          match valueEntriesDecEq xs ys with
          | .isTrue h2 => .isTrue (by rw [hk, h1, h2])
          | .isFalse h2 => .isFalse (fun hh => by cases hh; exact h2 rfl)
      else .isFalse (fun hh => by cases hh; exact hk rfl)

end

instance : DecidableEq Value := valueDecEq

/-- Association-list lookup: Python's `d[k]` / `k in d` (first match; real
dictionaries have unique keys). -/
def assocLookup {α β : Type} [DecidableEq α] : List (α × β) → α → Option β
  | [], _ => none
  | (a, b) :: rest, k => if a = k then some b else assocLookup rest k

/-- Association-list update: Python's `d[k] = v`.  An existing key keeps its
position; a new key is appended, as in insertion-ordered dictionaries. -/
def assocSet {α β : Type} [DecidableEq α] : List (α × β) → α → β → List (α × β)
  | [], k, v => [(k, v)]
  | (a, b) :: rest, k, v =>
      if a = k then (a, v) :: rest else (a, b) :: assocSet rest k v

abbrev Dict := List (Key × Value)

abbrev dictLookup (d : Dict) (k : Key) : Option Value := assocLookup d k

abbrev dictSet (d : Dict) (k : Key) (v : Value) : Dict := assocSet d k v

/-- Keys of a dictionary in insertion order. -/
def dictKeys (d : Dict) : List Key := d.map Prod.fst

/-- Real Python dictionaries never repeat a key. -/
def NodupKeys (d : Dict) : Prop := (dictKeys d).Nodup

instance (d : Dict) : Decidable (NodupKeys d) := by
  unfold NodupKeys; infer_instance

/-- Python's `d.update(src)`: set each key/value pair of `src` into `d`
in iteration order. -/
def dictUpdate (d : Dict) (src : Dict) : Dict :=
  src.foldl (fun acc kv => dictSet acc kv.1 kv.2) d

mutual

/-- `deep_copy` (source lines 40–57) at the pure value level: `copy.deepcopy`
rebuilds every container bottom-up and passes scalars through.  (The memo table
`copy.deepcopy` keeps for cyclic/shared inputs is not modelled; inputs here are
finite trees, matching the module's documented acyclicity precondition.) -/
def deep_copy : Value → Value
  | .vInt n => .vInt n
  | .vStr s => .vStr s
  | .vBool b => .vBool b
  | .vNone => .vNone
  | .vList l => .vList (deepCopyList l)
  | .vDict d => .vDict (deepCopyEntries d)

def deepCopyList : List Value → List Value
  | [] => []
  | v :: rest => deep_copy v :: deepCopyList rest

def deepCopyEntries : Dict → Dict
  | [] => []
  | (k, v) :: rest => (k, deep_copy v) :: deepCopyEntries rest

end

/-- `copy_dict_with_override` (source lines 60–74):
`result = original.copy(); result.update(overrides); return result`.
The `**overrides` keyword arguments force string keys; at the value level a
shallow `original.copy()` is `original` itself. -/
def copy_dict_with_override (original : Dict) (overrides : List (String × Value)) : Dict :=
  dictUpdate original (overrides.map (fun p => (Key.kStr p.1, p.2)))

/-- `merge_dicts` (source lines 77–92): `result = {}`, then
`result.update(d)` for each input dictionary in sequence order. -/
def merge_dicts (dicts : List Dict) : Dict :=
  dicts.foldl dictUpdate []

mutual

/-- `deep_merge_dicts` (source lines 95–115): `result = deep_copy(base)`,
then run the override loop. -/
def deep_merge_dicts (base : Dict) (override : Dict) : Dict :=
  mergeRun (deepCopyEntries base) override

/-- The `for key, value in override.items()` loop of `deep_merge_dicts`,
with `result` as the accumulator:
if `key in result and isinstance(result[key], dict) and isinstance(value, dict)`
then `result[key] = deep_merge_dicts(result[key], value)`
else `result[key] = deep_copy(value)`. -/
def mergeRun (result : Dict) : Dict → Dict
  | [] => result
  | (k, v) :: rest =>
    match dictLookup result k, v with
    | some (.vDict bsub), .vDict vsub =>
        mergeRun (dictSet result k (.vDict (deep_merge_dicts bsub vsub))) rest
    | _, _ =>
        mergeRun (dictSet result k (deep_copy v)) rest

end

/-- One iteration of the `deep_merge_dicts` loop, as the specification words it:
if the key is already present and both sides are mappings, recursively
deep-merge; otherwise replace with a deep copy of the override value. -/
def deepMergeStep (result : Dict) (kv : Key × Value) : Dict :=
  match dictLookup result kv.1, kv.2 with
  | some (.vDict bsub), .vDict vsub =>
      dictSet result kv.1 (.vDict (deep_merge_dicts bsub vsub))
  | _, _ => dictSet result kv.1 (deep_copy kv.2)

/-- The error `freeze_dict` surfaces when its key-sort compares unorderable
keys (Python raises `TypeError`; the specification names it `OrderingError`). -/
inductive OrderingError where
  | unorderable : OrderingError
deriving DecidableEq, Repr

/-- Lexicographic comparison of character lists by code point, Python's `<`
on strings.  (Lean's own `String` order instance does not evaluate inside the
kernel, so the comparison is spelled out.) -/
def charListLt : List Char → List Char → Bool
  | [], [] => false
  | [], _ :: _ => true
  | _ :: _, [] => false
  | c :: cs, d :: ds =>
    if c.toNat < d.toNat then true
    else if d.toNat < c.toNat then false
    else charListLt cs ds

/-- Python's `<` on strings: lexicographic on code points. -/
def pyStrLt (a b : String) : Bool := charListLt a.data b.data

/-- Python 3's `<` on dictionary keys: defined within a type (`int < int`,
`str < str`), a `TypeError` across types. -/
def keyLt : Key → Key → Option Bool
  | .kInt a, .kInt b => some (decide (a < b))
  | .kStr a, .kStr b => some (pyStrLt a b)
  | _, _ => none

/-- Insert one item into an already-sorted item list, comparing keys with
Python's `<`.  `sorted(d.items())` compares the `(key, value)` tuples, but a
real dictionary never repeats a key, so only the key comparison is ever
consulted. -/
def insertSorted (x : Key × Value) : List (Key × Value) → Except OrderingError (List (Key × Value))
  | [] => .ok [x]
  | y :: ys =>
    match keyLt x.1 y.1 with
    | none => .error .unorderable
    | some true => .ok (x :: y :: ys)
    | some false =>
      match insertSorted x ys with
      | .ok r => .ok (y :: r)
      | .error e => .error e

/-- `sorted` on an item list via insertion sort.  CPython's Timsort performs a
different comparison sequence, but agrees observationally: on pairwise
orderable keys it succeeds with the unique key-sorted order, and whenever two
unorderable keys are present some cross comparison is forced, raising. -/
def sortItems : List (Key × Value) → Except OrderingError (List (Key × Value))
  | [] => .ok []
  | x :: xs =>
    match sortItems xs with
    | .ok r => insertSorted x r
    | .error e => .error e

/-- `freeze_dict` (source lines 118–129): `tuple(sorted(d.items()))`.  The
resulting tuple of `(key, value)` pairs is modelled as the sorted item list;
Lean equality on it is Python `==` on the frozen tuples. -/
def freeze_dict (d : Dict) : Except OrderingError (List (Key × Value)) :=
  sortItems d

/-- The "later mapping wins" precedence reading of `FlatMerge`: the value a key
receives is the one from the last input dictionary that contains it. -/
def lastWins (ds : List Dict) (k : Key) : Option Value :=
  ds.foldl (fun acc d => match dictLookup d k with | some v => some v | none => acc) none

/-- All keys of a dictionary are pairwise order-comparable under Python's `<`
(equivalently: no `int` key next to a `str` key). -/
def MutuallyOrderable (d : Dict) : Prop :=
  ∀ k1 ∈ dictKeys d, ∀ k2 ∈ dictKeys d, (keyLt k1 k2).isSome

instance (d : Dict) : Decidable (MutuallyOrderable d) := by
  unfold MutuallyOrderable; infer_instance

/-- Strict key order between two items (Python `<` succeeded and returned
true). -/
def keyLtTrue (p q : Key × Value) : Prop := keyLt p.1 q.1 = some true

/-- An item list in strictly increasing key order (the shape of a successful
`sorted(d.items())` on a dictionary with unique keys). -/
def StrictSortedK (l : List (Key × Value)) : Prop := l.Pairwise keyLtTrue

/-- Decidable equality on `Except` results (for evaluating concrete frozen
forms). -/
def exceptDecEq {ε α : Type} [DecidableEq ε] [DecidableEq α] :
    (x y : Except ε α) → Decidable (x = y)
  | .ok x, .ok y =>
      if h : x = y then .isTrue (by rw [h]) else .isFalse (fun hh => h (by cases hh; rfl))
  | .error x, .error y =>
      if h : x = y then .isTrue (by rw [h]) else .isFalse (fun hh => h (by cases hh; rfl))
  | .ok _, .error _ => .isFalse (fun h => Except.noConfusion h)
  | .error _, .ok _ => .isFalse (fun h => Except.noConfusion h)

instance {ε α : Type} [DecidableEq ε] [DecidableEq α] : DecidableEq (Except ε α) :=
  exceptDecEq

/-! ## Heap model

Python objects have identity: containers are heap cells reached through
references, scalars are immutable immediates.  `shallow_copy`, `deep_copy`,
`copy_dict_with_override` and `deep_merge_dicts` become heap transformers; the
non-mutation and independence claims are statements about which addresses a
call may write and which addresses its result can reach. -/

/-- Immutable Python scalars (shared freely; identity is unobservable). -/
inductive Scalar where
  | sInt : Int → Scalar
  | sStr : String → Scalar
  | sBool : Bool → Scalar
  | sNone : Scalar
deriving DecidableEq, Repr

/-- A runtime value slot: an immediate scalar or a reference to a heap cell. -/
inductive HVal where
  | imm : Scalar → HVal
  | ref : Nat → HVal
deriving DecidableEq, Repr

/-- A mutable container object: a dictionary cell or a list cell. -/
inductive Cell where
  | dcell : List (Key × HVal) → Cell
  | lcell : List HVal → Cell
deriving DecidableEq, Repr

/-- The heap: an association list of allocated cells plus the next fresh
address. -/
structure Heap where
  cells : List (Nat × Cell)
  next : Nat
deriving DecidableEq, Repr

def lookupH (h : Heap) (a : Nat) : Option Cell := assocLookup h.cells a

/-- Natess is allocated. -/
def domH (h : Heap) (a : Nat) : Bool := (lookupH h a).isSome

/-- Allocate a fresh cell, returning the new heap and the fresh address. -/
def allocH (h : Heap) (c : Cell) : Heap × Nat :=
  (⟨(h.next, c) :: h.cells, h.next + 1⟩, h.next)

/-- Overwrite the cell at an (allocated) address. -/
def storeH (h : Heap) (a : Nat) (c : Cell) : Heap :=
  ⟨assocSet h.cells a c, h.next⟩

/-- The member slots of a container cell (a dictionary's values, a list's
elements). -/
def cellHVals : Cell → List HVal
  | .dcell l => l.map Prod.snd
  | .lcell l => l

def hvalRefOk (h : Heap) : HVal → Bool
  | .imm _ => true
  | .ref a => domH h a

def cellOk (h : Heap) (c : Cell) : Bool := (cellHVals c).all (hvalRefOk h)

/-- Heap well-formedness: every allocated address is below `next` and every
reference stored in a cell points to an allocated cell. -/
def wfb (h : Heap) : Bool :=
  h.cells.all (fun p => decide (p.1 < h.next) && cellOk h p.2)

/-- Reachability: the addresses of all cells reachable from a value slot. -/
inductive HReach (h : Heap) : HVal → Nat → Prop where
  | here (a : Nat) : HReach h (.ref a) a
  | step (a : Nat) (c : Cell) (w : HVal) (b : Nat) :
      lookupH h a = some c → w ∈ cellHVals c → HReach h w b → HReach h (.ref a) b

/-- Heap evolution that only allocates fresh cells or writes to fresh cells:
everything below the old `next` is untouched. -/
def GrowsFresh (h h' : Heap) : Prop :=
  h.next ≤ h'.next ∧ ∀ a, a < h.next → lookupH h' a = lookupH h a

/-- All cells at addresses `≥ n` only reference addresses `≥ n`: the fresh
region is closed, so nothing reachable from inside it escapes below `n`. -/
def RegionClosed (h : Heap) (n : Nat) : Prop :=
  ∀ a c, lookupH h a = some c → n ≤ a → ∀ b, HVal.ref b ∈ cellHVals c → n ≤ b

def scalarVal : Scalar → Value
  | .sInt n => .vInt n
  | .sStr s => .vStr s
  | .sBool b => .vBool b
  | .sNone => .vNone

/-- Read back the members of a dictionary cell with a given slot-reader
(the reader is the next-lower-fuel `readValV`). -/
def readEntriesF (rv : HVal → Option Value) : List (Key × HVal) → Option (List (Key × Value))
  | [] => some []
  | (k, v) :: rest =>
    match rv v with
    | some w =>
      match readEntriesF rv rest with
      | some ws => some ((k, w) :: ws)
      | none => none
    | none => none

/-- Read back the members of a list cell with a given slot-reader. -/
def readListF (rv : HVal → Option Value) : List HVal → Option (List Value)
  | [] => some []
  | v :: rest =>
    match rv v with
    | some w =>
      match readListF rv rest with
      | some ws => some (w :: ws)
      | none => none
    | none => none

/-- Read the pure value denoted by a slot, following references up to `fuel`
nesting levels (cyclic heaps are out of scope; every acyclic heap is fully
read by a large enough fuel). -/
def readValV : Nat → Heap → HVal → Option Value
  | _, _, .imm s => some (scalarVal s)
  | 0, _, .ref _ => none
  | fuel+1, h, .ref a =>
    match lookupH h a with
    | some (.dcell l) =>
      match readEntriesF (fun v => readValV fuel h v) l with
      | some es => some (.vDict es)
      | none => none
    | some (.lcell l) =>
      match readListF (fun v => readValV fuel h v) l with
      | some vs => some (.vList vs)
      | none => none
    | none => none

def readEntriesV (fuel : Nat) (h : Heap) (l : List (Key × HVal)) :
    Option (List (Key × Value)) :=
  readEntriesF (fun v => readValV fuel h v) l

def readListV (fuel : Nat) (h : Heap) (l : List HVal) : Option (List Value) :=
  readListF (fun v => readValV fuel h v) l

/-- `shallow_copy` (source lines 14–37) on a container: `obj.copy()` allocates
a new top-level cell whose direct members are the same slots. -/
def shallowCopyH (h : Heap) (a : Nat) : Option (Heap × Nat) :=
  match lookupH h a with
  | some c => some (allocH h c)
  | none => none

/-- Deep-copy the entries of a dictionary cell with a given slot-copier,
threading the heap left to right. -/
def deepCopyEntriesF (dc : Heap → HVal → Option (Heap × HVal)) :
    Heap → List (Key × HVal) → Option (Heap × List (Key × HVal))
  | h, [] => some (h, [])
  | h, (k, v) :: rest =>
    match dc h v with
    | some (h1, v1) =>
      match deepCopyEntriesF dc h1 rest with
      | some (h2, rest2) => some (h2, (k, v1) :: rest2)
      | none => none
    | none => none

/-- Deep-copy the elements of a list cell with a given slot-copier. -/
def deepCopyListF (dc : Heap → HVal → Option (Heap × HVal)) :
    Heap → List HVal → Option (Heap × List HVal)
  | h, [] => some (h, [])
  | h, v :: rest =>
    match dc h v with
    | some (h1, v1) =>
      match deepCopyListF dc h1 rest with
      | some (h2, rest2) => some (h2, v1 :: rest2)
      | none => none
    | none => none

/-- `deep_copy` (source lines 40–57) in the heap: rebuild every reachable
container in freshly allocated cells, pass scalars through.  `fuel` bounds the
recursion depth (the module documents cyclic inputs as unsupported; on acyclic
input any fuel beyond the nesting depth succeeds).  The memo table
`copy.deepcopy` uses to preserve internal sharing is not modelled — it is
unobservable at the value level and irrelevant to the freshness claims. -/
def deepCopyV : Nat → Heap → HVal → Option (Heap × HVal)
  | _, h, .imm s => some (h, .imm s)
  | 0, _, .ref _ => none
  | fuel+1, h, .ref a =>
    match lookupH h a with
    | some (.dcell l) =>
      match deepCopyEntriesF (fun h2 v => deepCopyV fuel h2 v) h l with
      | some (h1, l2) => some ((allocH h1 (.dcell l2)).1, .ref (allocH h1 (.dcell l2)).2)
      | none => none
    | some (.lcell l) =>
      match deepCopyListF (fun h2 v => deepCopyV fuel h2 v) h l with
      | some (h1, l2) => some ((allocH h1 (.lcell l2)).1, .ref (allocH h1 (.lcell l2)).2)
      | none => none
    | none => none

def deepCopyEntriesH (fuel : Nat) (h : Heap) (l : List (Key × HVal)) :
    Option (Heap × List (Key × HVal)) :=
  deepCopyEntriesF (fun h2 v => deepCopyV fuel h2 v) h l

def deepCopyListH (fuel : Nat) (h : Heap) (l : List HVal) : Option (Heap × List HVal) :=
  deepCopyListF (fun h2 v => deepCopyV fuel h2 v) h l

/-- `copy_dict_with_override` (source lines 60–74) in the heap:
`result = original.copy()` allocates one fresh dictionary cell sharing the
original's slots, then `result.update(overrides)` writes the keyword overrides
into that fresh cell only.  Override values are stored as given — not copied. -/
def overrideCopyH (h : Heap) (a : Nat) (overrides : List (String × HVal)) :
    Option (Heap × Nat) :=
  match lookupH h a with
  | some (.dcell l) =>
    let p := allocH h (.dcell l)
    some (storeH p.1 p.2
      (.dcell (overrides.foldl (fun acc kv => assocSet acc (Key.kStr kv.1) kv.2) l)), p.2)
  | _ => none

/-- The `for key, value in override.items()` loop of `deep_merge_dicts`,
parameterized by the recursive merge (`dm`) and `deep_copy` (`dc`) at the
next-lower fuel, writing into the result cell at `ra`. -/
def mergeLoopF (dm : Heap → Nat → Nat → Option (Heap × Nat))
    (dc : Heap → HVal → Option (Heap × HVal)) :
    Heap → Nat → List (Key × HVal) → Option (Heap × Nat)
  | h, ra, [] => some (h, ra)
  | h, ra, (k, v) :: rest =>
    match lookupH h ra with
    | some (.dcell l) =>
      match assocLookup l k, v with
      | some (.ref rb), .ref vb =>
        match lookupH h rb, lookupH h vb with
        | some (.dcell _), some (.dcell _) =>
          match dm h rb vb with
          | some (h2, rm) =>
            match lookupH h2 ra with
            | some (.dcell l2) =>
                mergeLoopF dm dc (storeH h2 ra (.dcell (assocSet l2 k (.ref rm)))) ra rest
            | _ => none
          | none => none
        | _, _ =>
          match dc h v with
          | some (h2, v2) => mergeLoopF dm dc (storeH h2 ra (.dcell (assocSet l k v2))) ra rest
          | none => none
      | _, _ =>
        match dc h v with
        | some (h2, v2) => mergeLoopF dm dc (storeH h2 ra (.dcell (assocSet l k v2))) ra rest
        | none => none
    | _ => none

/-- `deep_merge_dicts` (source lines 95–115) in the heap, on two dictionary
addresses: `result = deep_copy(base)`, then the override loop.  Only the fresh
result cell (and cells the recursion freshly allocates) are ever written. -/
def deepMergeH : Nat → Heap → Nat → Nat → Option (Heap × Nat)
  | 0, _, _, _ => none
  | fuel+1, h, ab, ao =>
    match deepCopyV (fuel+1) h (.ref ab) with
    | some (h1, .ref ra) =>
      match lookupH h1 ao with
      | some (.dcell items) =>
          mergeLoopF (fun h2 rb vb => deepMergeH fuel h2 rb vb)
            (fun h2 v => deepCopyV fuel h2 v) h1 ra items
      | _ => none
    | _ => none

/-- The override loop at fuel `fuel`. -/
def mergeLoopH (fuel : Nat) (h : Heap) (ra : Nat) (items : List (Key × HVal)) :
    Option (Heap × Nat) :=
  mergeLoopF (fun h2 rb vb => deepMergeH fuel h2 rb vb)
    (fun h2 v => deepCopyV fuel h2 v) h ra items

/-- The `else` arm of the loop: `result[key] = deep_copy(value)`.
(`deep_copy` only allocates, so the result cell's contents `l` read before the
copy are its contents at the time of the write.) -/
def mergeElseH (fuel : Nat) (h : Heap) (ra : Nat) (l : List (Key × HVal)) (k : Key)
    (v : HVal) (rest : List (Key × HVal)) : Option (Heap × Nat) :=
  match deepCopyV fuel h v with
  | some (h2, v2) => mergeLoopH fuel (storeH h2 ra (.dcell (assocSet l k v2))) ra rest
  | none => none

/-- Invariant of `deepCopyV`: the heap only grows with fresh cells, stays
well-formed, the returned reference (if any) is fresh and allocated, and the
fresh region stays closed. -/
def DeepCopyVInv (f : Nat) : Prop :=
  ∀ (h : Heap) (v : HVal) (h' : Heap) (v' : HVal), wfb h = true →
    deepCopyV f h v = some (h', v') →
    GrowsFresh h h' ∧ wfb h' = true ∧
    (∀ a, v' = .ref a → h.next ≤ a ∧ domH h' a = true) ∧
    (∀ n, n ≤ h.next → RegionClosed h n → RegionClosed h' n)

/-- Invariant of `deepCopyEntriesH`, with freshness for every reference in the
copied entry list. -/
def DeepCopyEntriesInv (f : Nat) : Prop :=
  ∀ (h : Heap) (l : List (Key × HVal)) (h' : Heap) (l' : List (Key × HVal)), wfb h = true →
    deepCopyEntriesH f h l = some (h', l') →
    GrowsFresh h h' ∧ wfb h' = true ∧
    (∀ a, HVal.ref a ∈ l'.map Prod.snd → h.next ≤ a ∧ domH h' a = true) ∧
    (∀ n, n ≤ h.next → RegionClosed h n → RegionClosed h' n)

/-- Invariant of `deepCopyListH`. -/
def DeepCopyListInv (f : Nat) : Prop :=
  ∀ (h : Heap) (l : List HVal) (h' : Heap) (l' : List HVal), wfb h = true →
    deepCopyListH f h l = some (h', l') →
    GrowsFresh h h' ∧ wfb h' = true ∧
    (∀ a, HVal.ref a ∈ l' → h.next ≤ a ∧ domH h' a = true) ∧
    (∀ n, n ≤ h.next → RegionClosed h n → RegionClosed h' n)

/-- Invariant of `deepMergeH`: pre-existing cells are untouched, the heap stays
well-formed, the result dictionary is fresh and allocated, and the fresh region
stays closed. -/
def MergeHInv (f : Nat) : Prop :=
  ∀ (h : Heap) (ab ao : Nat) (h' : Heap) (r : Nat), wfb h = true →
    deepMergeH f h ab ao = some (h', r) →
    GrowsFresh h h' ∧ wfb h' = true ∧ h.next ≤ r ∧ domH h' r = true ∧
    (∀ n, n ≤ h.next → RegionClosed h n → RegionClosed h' n)

/-- Invariant of `mergeLoopH`: only the result cell `ra` (and fresh cells) are
written. -/
def MergeLoopInv (f : Nat) : Prop :=
  ∀ (items : List (Key × HVal)) (h : Heap) (ra : Nat) (h' : Heap) (r : Nat), wfb h = true →
    mergeLoopH f h ra items = some (h', r) →
    r = ra ∧ h.next ≤ h'.next ∧
    (∀ x, x < h.next → x ≠ ra → lookupH h' x = lookupH h x) ∧
    wfb h' = true ∧ (domH h ra = true → domH h' ra = true) ∧
    (∀ n, n ≤ h.next → n ≤ ra → RegionClosed h n → RegionClosed h' n)

/-! ## Association-list lemmas -/

theorem assocLookup_assocSet {α β : Type} [DecidableEq α] (l : List (α × β)) (k k' : α) (v : β) :
    assocLookup (assocSet l k v) k' = if k' = k then some v else assocLookup l k' := by
  induction l with
  | nil =>
    by_cases h : k' = k
    · subst h; simp [assocSet, assocLookup]
    · have h2 : ¬ k = k' := fun hh => h hh.symm
      simp [assocSet, assocLookup, h, h2]
  | cons p rest ih =>
    obtain ⟨a, b⟩ := p
    by_cases ha : a = k
    · subst ha
      by_cases h : k' = a
      · subst h; simp [assocSet, assocLookup]
      · have h2 : ¬ a = k' := fun hh => h hh.symm
        simp [assocSet, assocLookup, h, h2]
    · by_cases hk' : a = k'
      · subst hk'
        have h2 : ¬ k = a := fun hh => ha hh.symm
        simp [assocSet, assocLookup, ha, h2]
      · by_cases h : k' = k
        · subst h; simp [assocSet, assocLookup, ha, hk', ih]
        · simp [assocSet, assocLookup, ha, hk', ih, h]

theorem mem_keys_assocSet {α β : Type} [DecidableEq α] (l : List (α × β)) (k k' : α) (v : β) :
    k' ∈ (assocSet l k v).map Prod.fst ↔ k' = k ∨ k' ∈ l.map Prod.fst := by
  induction l with
  | nil => simp [assocSet]
  | cons p rest ih =>
    obtain ⟨a, b⟩ := p
    by_cases ha : a = k
    · subst ha; simp [assocSet]
    · simp only [assocSet, if_neg ha, List.map_cons, List.mem_cons, ih]
      tauto

theorem assocLookup_eq_none {α β : Type} [DecidableEq α] (l : List (α × β)) (k : α) :
    assocLookup l k = none ↔ k ∉ l.map Prod.fst := by
  induction l with
  | nil => simp [assocLookup]
  | cons p rest ih =>
    obtain ⟨a, b⟩ := p
    by_cases ha : a = k
    · subst ha; simp [assocLookup]
    · simp only [assocLookup, if_neg ha, List.map_cons, List.mem_cons, ih]
      constructor
      · rintro h hm
        rcases hm with rfl | hm
        · exact ha rfl
        · exact h hm
      · intro h hm
        exact h (Or.inr hm)

theorem assocLookup_mem {α β : Type} [DecidableEq α] {l : List (α × β)} {k : α} {v : β}
    (h : assocLookup l k = some v) : (k, v) ∈ l := by
  induction l with
  | nil => simp [assocLookup] at h
  | cons p rest ih =>
    obtain ⟨a, b⟩ := p
    by_cases ha : a = k
    · subst ha
      rw [show assocLookup ((a, b) :: rest) a = some b from by simp [assocLookup]] at h
      injection h with hbv
      subst hbv
      exact List.mem_cons_self _ _
    · simp only [assocLookup, if_neg ha] at h
      exact List.mem_cons_of_mem _ (ih h)

theorem assocSet_of_not_mem {α β : Type} [DecidableEq α] {l : List (α × β)} {k : α} (v : β)
    (h : k ∉ l.map Prod.fst) : assocSet l k v = l ++ [(k, v)] := by
  induction l with
  | nil => simp [assocSet]
  | cons p rest ih =>
    obtain ⟨a, b⟩ := p
    simp only [List.map_cons, List.mem_cons] at h
    push_neg at h
    have hak : ¬ a = k := fun hh => h.1 hh.symm
    simp only [assocSet, if_neg hak, List.cons_append, List.cons.injEq, true_and]
    exact ih h.2

/-! ## Dictionary-level wrappers of the association-list lemmas -/

theorem dictLookup_nil (k : Key) : dictLookup [] k = none := rfl

theorem dictLookup_cons (k' : Key) (v' : Value) (rest : Dict) (k : Key) :
    dictLookup ((k', v') :: rest) k = if k' = k then some v' else dictLookup rest k := rfl

theorem dictLookup_dictSet (d : Dict) (k k' : Key) (v : Value) :
    dictLookup (dictSet d k v) k' = if k' = k then some v else dictLookup d k' :=
  assocLookup_assocSet d k k' v

theorem mem_keys_dictSet (d : Dict) (k k' : Key) (v : Value) :
    k' ∈ dictKeys (dictSet d k v) ↔ k' = k ∨ k' ∈ dictKeys d :=
  mem_keys_assocSet d k k' v

theorem dictKeys_nil : dictKeys [] = [] := rfl

theorem dictKeys_cons (k : Key) (v : Value) (rest : Dict) :
    dictKeys ((k, v) :: rest) = k :: dictKeys rest := rfl

theorem dictLookup_none_iff (d : Dict) (k : Key) :
    dictLookup d k = none ↔ k ∉ dictKeys d :=
  assocLookup_eq_none d k

theorem dictSet_of_not_mem {d : Dict} {k : Key} (v : Value) (h : k ∉ dictKeys d) :
    dictSet d k v = d ++ [(k, v)] :=
  assocSet_of_not_mem v h

theorem nodupKeys_cons {k : Key} {v : Value} {rest : Dict} (h : NodupKeys ((k, v) :: rest)) :
    k ∉ dictKeys rest ∧ NodupKeys rest := by
  simpa [NodupKeys, dictKeys, List.nodup_cons] using h

/-! ## `dict.update` lemmas -/

theorem dictUpdate_cons (d : Dict) (k : Key) (v : Value) (rest : Dict) :
    dictUpdate d ((k, v) :: rest) = dictUpdate (dictSet d k v) rest := rfl

theorem dictLookup_dictUpdate_not_mem (src : Dict) : ∀ (d : Dict) (k : Key),
    k ∉ dictKeys src → dictLookup (dictUpdate d src) k = dictLookup d k := by
  induction src with
  | nil => intro d k _; rfl
  | cons p rest ih =>
    intro d k hk
    obtain ⟨k', v'⟩ := p
    rw [dictKeys_cons, List.mem_cons] at hk
    push_neg at hk
    rw [dictUpdate_cons, ih _ _ hk.2, dictLookup_dictSet, if_neg hk.1]

theorem dictLookup_dictUpdate_mem (src : Dict) : ∀ (d : Dict) (k : Key) (v : Value),
    NodupKeys src → dictLookup src k = some v → dictLookup (dictUpdate d src) k = some v := by
  induction src with
  | nil => intro d k v _ h; exact absurd h (by simp [dictLookup_nil])
  | cons p rest ih =>
    intro d k v hnd h
    obtain ⟨k', v'⟩ := p
    have hnd' := nodupKeys_cons hnd
    by_cases hk : k' = k
    · subst hk
      rw [dictLookup_cons, if_pos rfl] at h
      injection h with h; subst h
      rw [dictUpdate_cons, dictLookup_dictUpdate_not_mem _ _ _ hnd'.1, dictLookup_dictSet,
        if_pos rfl]
    · rw [dictLookup_cons, if_neg hk] at h
      rw [dictUpdate_cons]
      exact ih _ _ _ hnd'.2 h

theorem mem_keys_dictUpdate (src : Dict) : ∀ (d : Dict) (k : Key),
    k ∈ dictKeys (dictUpdate d src) ↔ k ∈ dictKeys d ∨ k ∈ dictKeys src := by
  induction src with
  | nil =>
    intro d k
    rw [show dictUpdate d [] = d from rfl, dictKeys_nil]
    simp
  | cons p rest ih =>
    intro d k
    obtain ⟨k', v'⟩ := p
    rw [dictUpdate_cons, ih, mem_keys_dictSet, dictKeys_cons, List.mem_cons]
    tauto

theorem dictUpdate_append (src : Dict) : ∀ acc : Dict, NodupKeys src →
    (∀ k ∈ dictKeys src, k ∉ dictKeys acc) → dictUpdate acc src = acc ++ src := by
  induction src with
  | nil => intro acc _ _; simp [dictUpdate]
  | cons p rest ih =>
    intro acc hnd hdisj
    obtain ⟨k, v⟩ := p
    have hnd' := nodupKeys_cons hnd
    have hk : k ∉ dictKeys acc := hdisj k (by rw [dictKeys_cons]; exact List.mem_cons_self _ _)
    rw [dictUpdate_cons, dictSet_of_not_mem v hk, ih _ hnd'.2]
    · simp
    · intro k2 hk2
      have h1 : k2 ≠ k := fun hh => hnd'.1 (hh ▸ hk2)
      have h2 : k2 ∉ dictKeys acc := hdisj k2 (by rw [dictKeys_cons]; exact List.mem_cons_of_mem _ hk2)
      intro hmem
      rw [show dictKeys (acc ++ [(k, v)]) = dictKeys acc ++ [k] from by
        simp [dictKeys]] at hmem
      rcases List.mem_append.mp hmem with h | h
      · exact h2 h
      · exact h1 (List.mem_singleton.mp h)

theorem foldl_dictUpdate_lookup (ds : List Dict) : ∀ (acc : Dict) (k : Key),
    (∀ d ∈ ds, NodupKeys d) →
    dictLookup (List.foldl dictUpdate acc ds) k
      = ds.foldl (fun o d => match dictLookup d k with | some v => some v | none => o)
          (dictLookup acc k) := by
  induction ds with
  | nil => intro acc k _; rfl
  | cons d rest ih =>
    intro acc k hnd
    simp only [List.foldl_cons]
    rw [ih _ _ (fun d' hd' => hnd d' (List.mem_cons_of_mem _ hd'))]
    have hstep : dictLookup (dictUpdate acc d) k
        = match dictLookup d k with | some v => some v | none => dictLookup acc k := by
      cases hdk : dictLookup d k with
      | some v => exact dictLookup_dictUpdate_mem _ _ _ _ (hnd d (List.mem_cons_self _ _)) hdk
      | none => exact dictLookup_dictUpdate_not_mem _ _ _ ((dictLookup_none_iff _ _).mp hdk)
    rw [hstep]

/-! ## `deep_copy` lemmas (pure level) -/

theorem deepCopyEntries_nil : deepCopyEntries [] = [] := by
  rw [deepCopyEntries]

theorem deepCopyEntries_cons (k : Key) (v : Value) (rest : Dict) :
    deepCopyEntries ((k, v) :: rest) = (k, deep_copy v) :: deepCopyEntries rest := by
  rw [deepCopyEntries]

theorem keys_deepCopyEntries (d : Dict) : dictKeys (deepCopyEntries d) = dictKeys d := by
  induction d with
  | nil => rw [deepCopyEntries_nil]
  | cons p rest ih =>
    obtain ⟨k, v⟩ := p
    rw [deepCopyEntries_cons, dictKeys_cons, dictKeys_cons, ih]

theorem dictLookup_deepCopyEntries (d : Dict) (k : Key) :
    dictLookup (deepCopyEntries d) k = (dictLookup d k).map deep_copy := by
  induction d with
  | nil => rw [deepCopyEntries_nil, dictLookup_nil]; rfl
  | cons p rest ih =>
    obtain ⟨k', v'⟩ := p
    rw [deepCopyEntries_cons, dictLookup_cons, dictLookup_cons]
    by_cases hk : k' = k
    · rw [if_pos hk, if_pos hk]; rfl
    · rw [if_neg hk, if_neg hk, ih]

theorem isDict_deep_copy (v : Value) : (deep_copy v).isDict = v.isDict := by
  cases v <;> rw [deep_copy] <;> rfl

/-! ## `deep_merge_dicts` loop lemmas -/

theorem mergeRun_nil (r : Dict) : mergeRun r [] = r := by
  rw [mergeRun.eq_def]

theorem mergeRun_cons (r : Dict) (k : Key) (v : Value) (rest : Dict) :
    mergeRun r ((k, v) :: rest) =
      match dictLookup r k, v with
      | some (.vDict bsub), .vDict vsub =>
          mergeRun (dictSet r k (.vDict (deep_merge_dicts bsub vsub))) rest
      | _, _ => mergeRun (dictSet r k (deep_copy v)) rest := by
  conv_lhs => rw [mergeRun.eq_def]

theorem mergeRun_cons_both (r : Dict) (k : Key) (bsub vsub : List (Key × Value)) (rest : Dict)
    (h : dictLookup r k = some (.vDict bsub)) :
    mergeRun r ((k, .vDict vsub) :: rest)
      = mergeRun (dictSet r k (.vDict (deep_merge_dicts bsub vsub))) rest := by
  rw [mergeRun_cons, h]

theorem mergeRun_cons_else (r : Dict) (k : Key) (v : Value) (rest : Dict)
    (h : ∀ bsub vsub, dictLookup r k = some (.vDict bsub) → v = .vDict vsub → False) :
    mergeRun r ((k, v) :: rest) = mergeRun (dictSet r k (deep_copy v)) rest := by
  rw [mergeRun_cons]
  split
  · rename_i bsub vsub heq
    exact (h bsub vsub heq rfl).elim
  · rfl

theorem mergeRun_cons_exists (r : Dict) (k : Key) (v : Value) (rest : Dict) :
    ∃ w : Value, mergeRun r ((k, v) :: rest) = mergeRun (dictSet r k w) rest := by
  by_cases hc : ∃ bsub vsub, dictLookup r k = some (.vDict bsub) ∧ v = .vDict vsub
  · obtain ⟨bsub, vsub, h1, h2⟩ := hc
    subst h2
    exact ⟨_, mergeRun_cons_both r k bsub vsub rest h1⟩
  · refine ⟨_, mergeRun_cons_else r k v rest ?_⟩
    intro bsub vsub h1 h2
    exact hc ⟨bsub, vsub, h1, h2⟩

theorem mergeRun_not_mem (o : Dict) : ∀ (r : Dict) (k : Key), k ∉ dictKeys o →
    dictLookup (mergeRun r o) k = dictLookup r k := by
  induction o with
  | nil => intro r k _; rw [mergeRun_nil]
  | cons p rest ih =>
    intro r k hk
    obtain ⟨k', v'⟩ := p
    rw [dictKeys_cons, List.mem_cons] at hk
    push_neg at hk
    obtain ⟨w, hw⟩ := mergeRun_cons_exists r k' v' rest
    rw [hw, ih _ _ hk.2, dictLookup_dictSet, if_neg hk.1]

theorem mem_keys_mergeRun (o : Dict) : ∀ (r : Dict) (k : Key),
    k ∈ dictKeys (mergeRun r o) ↔ k ∈ dictKeys r ∨ k ∈ dictKeys o := by
  induction o with
  | nil => intro r k; rw [mergeRun_nil, dictKeys_nil]; simp
  | cons p rest ih =>
    intro r k
    obtain ⟨k', v'⟩ := p
    obtain ⟨w, hw⟩ := mergeRun_cons_exists r k' v' rest
    rw [hw, ih, mem_keys_dictSet, dictKeys_cons, List.mem_cons]
    tauto

theorem mergeRun_replace (o : Dict) : ∀ (r : Dict) (k : Key) (bv ov : Value),
    NodupKeys o → dictLookup r k = some bv → dictLookup o k = some ov →
    ¬(bv.isDict = true ∧ ov.isDict = true) →
    dictLookup (mergeRun r o) k = some (deep_copy ov) := by
  induction o with
  | nil => intro r k bv ov _ _ ho _; exact absurd ho (by simp [dictLookup_nil])
  | cons p rest ih =>
    intro r k bv ov hnd hr ho hnot
    obtain ⟨k', v'⟩ := p
    have hnd' := nodupKeys_cons hnd
    by_cases hk : k' = k
    · subst hk
      rw [dictLookup_cons, if_pos rfl] at ho
      injection ho with ho; subst ho
      have helse : ∀ bsub vsub, dictLookup r k' = some (.vDict bsub) → v' = .vDict vsub → False := by
        intro bsub vsub h1 h2
        rw [hr] at h1
        injection h1 with h1
        exact hnot ⟨by rw [h1]; rfl, by rw [h2]; rfl⟩
      rw [mergeRun_cons_else _ _ _ _ helse, mergeRun_not_mem _ _ _ hnd'.1, dictLookup_dictSet,
        if_pos rfl]
    · rw [dictLookup_cons, if_neg hk] at ho
      obtain ⟨w, hw⟩ := mergeRun_cons_exists r k' v' rest
      rw [hw]
      refine ih _ _ bv _ hnd'.2 ?_ ho hnot
      rw [dictLookup_dictSet, if_neg (fun hh => hk hh.symm)]
      exact hr

theorem mergeRun_eq_foldl (o : Dict) : ∀ r : Dict, mergeRun r o = o.foldl deepMergeStep r := by
  induction o with
  | nil => intro r; rw [mergeRun_nil]; rfl
  | cons p rest ih =>
    intro r
    obtain ⟨k, v⟩ := p
    simp only [List.foldl_cons]
    rw [← ih]
    by_cases hc : ∃ bsub vsub, dictLookup r k = some (.vDict bsub) ∧ v = .vDict vsub
    · obtain ⟨bsub, vsub, h1, h2⟩ := hc
      subst h2
      rw [mergeRun_cons_both _ _ _ _ _ h1]
      have hstep : deepMergeStep r (k, .vDict vsub)
          = dictSet r k (.vDict (deep_merge_dicts bsub vsub)) := by
        simp [deepMergeStep, h1]
      rw [hstep]
    · have hc' : ∀ bsub vsub, dictLookup r k = some (.vDict bsub) → v = .vDict vsub → False :=
        fun bsub vsub h1 h2 => hc ⟨bsub, vsub, h1, h2⟩
      rw [mergeRun_cons_else _ _ _ _ hc']
      have hstep : deepMergeStep r (k, v) = dictSet r k (deep_copy v) := by
        rw [deepMergeStep]
        split
        · rename_i bsub vsub heq1 heq2
          exact (hc' bsub vsub heq1 heq2).elim
        · rfl
      rw [hstep]

/-! ## Key-order lemmas -/

theorem char_toNat_inj {a b : Char} (h : a.toNat = b.toNat) : a = b := by
  have hv : a.val = b.val := by
    apply UInt32.ext
    exact h
  cases a; cases b; simp_all

theorem charListLt_irrefl (l : List Char) : charListLt l l = false := by
  induction l with
  | nil => rfl
  | cons c rest ih => simp [charListLt, ih]

theorem charListLt_trans : ∀ a b c : List Char,
    charListLt a b = true → charListLt b c = true → charListLt a c = true := by
  intro a
  induction a with
  | nil =>
    intro b c hab hbc
    cases b with
    | nil => exact hbc
    | cons y ys =>
      cases c with
      | nil => simp [charListLt] at hbc
      | cons z zs => rfl
  | cons x xs ih =>
    intro b c hab hbc
    cases b with
    | nil => simp [charListLt] at hab
    | cons y ys =>
      cases c with
      | nil => simp [charListLt] at hbc
      | cons z zs =>
        simp only [charListLt] at hab hbc ⊢
        by_cases hxy : x.toNat < y.toNat
        · by_cases hyz : y.toNat < z.toNat
          · rw [if_pos (by omega)]
          · by_cases hzy : z.toNat < y.toNat
            · rw [if_neg hyz, if_pos hzy] at hbc
              exact absurd hbc (by simp)
            · rw [if_pos (by omega)]
        · by_cases hyx : y.toNat < x.toNat
          · rw [if_neg hxy, if_pos hyx] at hab
            exact absurd hab (by simp)
          · by_cases hyz : y.toNat < z.toNat
            · rw [if_pos (by omega)]
            · by_cases hzy : z.toNat < y.toNat
              · rw [if_neg hyz, if_pos hzy] at hbc
                exact absurd hbc (by simp)
              · rw [if_neg hxy, if_neg hyx] at hab
                rw [if_neg hyz, if_neg hzy] at hbc
                rw [if_neg (by omega : ¬ x.toNat < z.toNat), if_neg (by omega : ¬ z.toNat < x.toNat)]
                exact ih ys zs hab hbc

theorem charListLt_conn : ∀ a b : List Char,
    charListLt a b = false → a ≠ b → charListLt b a = true := by
  intro a
  induction a with
  | nil =>
    intro b hab hne
    cases b with
    | nil => exact absurd rfl hne
    | cons y ys => simp [charListLt] at hab
  | cons x xs ih =>
    intro b hab hne
    cases b with
    | nil => rfl
    | cons y ys =>
      simp only [charListLt] at hab ⊢
      by_cases hxy : x.toNat < y.toNat
      · simp [hxy] at hab
      · by_cases hyx : y.toNat < x.toNat
        · simp [hyx]
        · have hx : x = y := char_toNat_inj (by omega)
          subst hx
          simp only [if_neg hxy, if_neg hyx] at hab ⊢
          have hne' : xs ≠ ys := fun hh => hne (by rw [hh])
          exact ih ys hab hne'

theorem keyLt_refl_some (k : Key) : keyLt k k = some false := by
  cases k with
  | kInt a => simp [keyLt]
  | kStr s => simp [keyLt, pyStrLt, charListLt_irrefl]

theorem keyLt_isSome_refl (k : Key) : (keyLt k k).isSome := by
  rw [keyLt_refl_some]; rfl

theorem keyLt_isSome_symm {a b : Key} (h : (keyLt a b).isSome) : (keyLt b a).isSome := by
  cases a <;> cases b <;> simp [keyLt] at *

theorem keyLt_isSome_trans {a b c : Key} (h1 : (keyLt a b).isSome) (h2 : (keyLt b c).isSome) :
    (keyLt a c).isSome := by
  cases a <;> cases b <;> cases c <;> simp [keyLt] at *

theorem keyLt_trans {a b c : Key} (h1 : keyLt a b = some true) (h2 : keyLt b c = some true) :
    keyLt a c = some true := by
  cases a with
  | kInt x =>
    cases b with
    | kInt y =>
      cases c with
      | kInt z => simp [keyLt] at *; omega
      | kStr _ => simp [keyLt] at h2
    | kStr _ => simp [keyLt] at h1
  | kStr x =>
    cases b with
    | kInt _ => simp [keyLt] at h1
    | kStr y =>
      cases c with
      | kInt _ => simp [keyLt] at h2
      | kStr z =>
        simp only [keyLt, pyStrLt, Option.some.injEq] at h1 h2 ⊢
        exact charListLt_trans _ _ _ h1 h2

theorem keyLt_false_of_ne {a b : Key} (h : keyLt a b = some false) (hne : a ≠ b) :
    keyLt b a = some true := by
  cases a with
  | kInt x =>
    cases b with
    | kInt y =>
      simp only [keyLt, Option.some.injEq] at h ⊢
      have hxy : x ≠ y := fun hh => hne (by rw [hh])
      simp only [decide_eq_false_iff_not, not_lt] at h
      simp only [decide_eq_true_eq]
      omega
    | kStr _ => simp [keyLt] at h
  | kStr x =>
    cases b with
    | kInt _ => simp [keyLt] at h
    | kStr y =>
      simp only [keyLt, pyStrLt, Option.some.injEq] at h ⊢
      have hxy : x.data ≠ y.data := by
        intro hd
        apply hne
        have : x = y := by
          cases x; cases y; simp_all
        rw [this]
      exact charListLt_conn _ _ h hxy

/-! ## Sorting lemmas for `freeze_dict` -/

theorem insertSorted_perm (x : Key × Value) : ∀ (l r : List (Key × Value)),
    insertSorted x l = .ok r → r.Perm (x :: l) := by
  intro l
  induction l with
  | nil =>
    intro r h
    simp only [insertSorted, Except.ok.injEq] at h
    subst h
    exact List.Perm.refl _
  | cons y ys ih =>
    intro r h
    simp only [insertSorted] at h
    cases hk : keyLt x.1 y.1 with
    | none => rw [hk] at h; cases h
    | some b =>
      rw [hk] at h
      cases b
      · cases hi : insertSorted x ys with
        | error e => rw [hi] at h; cases h
        | ok r2 =>
          rw [hi] at h
          injection h with h
          subst h
          exact ((ih r2 hi).cons y).trans (List.Perm.swap x y ys)
      · injection h with h
        subst h
        exact List.Perm.refl _

theorem sortItems_perm : ∀ (l r : List (Key × Value)), sortItems l = .ok r → r.Perm l := by
  intro l
  induction l with
  | nil =>
    intro r h
    simp only [sortItems, Except.ok.injEq] at h
    subst h
    exact List.Perm.refl _
  | cons x xs ih =>
    intro r h
    simp only [sortItems] at h
    cases hs : sortItems xs with
    | error e => rw [hs] at h; cases h
    | ok r0 =>
      rw [hs] at h
      exact (insertSorted_perm x r0 r h).trans ((ih r0 hs).cons x)

theorem insertSorted_isOk (x : Key × Value) : ∀ l : List (Key × Value),
    (∀ y ∈ l, (keyLt x.1 y.1).isSome) → ∃ r, insertSorted x l = .ok r := by
  intro l
  induction l with
  | nil => intro _; exact ⟨[x], by simp [insertSorted]⟩
  | cons y ys ih =>
    intro h
    have hy := h y (List.mem_cons_self _ _)
    cases hk : keyLt x.1 y.1 with
    | none => rw [hk] at hy; simp at hy
    | some b =>
      cases b
      · obtain ⟨r2, hr2⟩ := ih (fun z hz => h z (List.mem_cons_of_mem _ hz))
        exact ⟨y :: r2, by simp [insertSorted, hk, hr2]⟩
      · exact ⟨x :: y :: ys, by simp [insertSorted, hk]⟩

theorem sortItems_isOk : ∀ l : List (Key × Value),
    (∀ y ∈ l, ∀ z ∈ l, (keyLt y.1 z.1).isSome) → ∃ r, sortItems l = .ok r := by
  intro l
  induction l with
  | nil => intro _; exact ⟨[], by simp [sortItems]⟩
  | cons x xs ih =>
    intro h
    obtain ⟨r0, hr0⟩ := ih (fun y hy z hz =>
      h y (List.mem_cons_of_mem _ hy) z (List.mem_cons_of_mem _ hz))
    have hcomp : ∀ y ∈ r0, (keyLt x.1 y.1).isSome := by
      intro y hy
      have hyxs : y ∈ xs := (sortItems_perm xs r0 hr0).mem_iff.mp hy
      exact h x (List.mem_cons_self _ _) y (List.mem_cons_of_mem _ hyxs)
    obtain ⟨r, hr⟩ := insertSorted_isOk x r0 hcomp
    exact ⟨r, by simp [sortItems, hr0, hr]⟩

theorem insertSorted_head_isSome {x y : Key × Value} {ys r : List (Key × Value)}
    (h : insertSorted x (y :: ys) = .ok r) : (keyLt x.1 y.1).isSome := by
  cases hk : keyLt x.1 y.1 with
  | none => simp [insertSorted, hk] at h
  | some b => rfl

theorem sortItems_comparable : ∀ (l r : List (Key × Value)), sortItems l = .ok r →
    ∀ y ∈ l, ∀ z ∈ l, (keyLt y.1 z.1).isSome := by
  intro l
  induction l with
  | nil => intro r _ y hy; simp at hy
  | cons x xs ih =>
    intro r h y hy z hz
    simp only [sortItems] at h
    cases hs : sortItems xs with
    | error e => rw [hs] at h; cases h
    | ok r0 =>
      rw [hs] at h
      have ihc := ih r0 hs
      have hxany : ∀ w ∈ xs, (keyLt x.1 w.1).isSome := by
        intro w hw
        have hw0 : w ∈ r0 := (sortItems_perm xs r0 hs).mem_iff.mpr hw
        cases hr0 : r0 with
        | nil => rw [hr0] at hw0; simp at hw0
        | cons h0 t0 =>
          rw [hr0] at h
          have h1 : (keyLt x.1 h0.1).isSome := insertSorted_head_isSome h
          have h0mem : h0 ∈ xs := (sortItems_perm xs r0 hs).mem_iff.mp
            (hr0 ▸ List.mem_cons_self h0 t0)
          exact keyLt_isSome_trans h1 (ihc h0 h0mem w hw)
      rcases List.mem_cons.mp hy with rfl | hy2
      · rcases List.mem_cons.mp hz with rfl | hz2
        · exact keyLt_isSome_refl _
        · exact hxany z hz2
      · rcases List.mem_cons.mp hz with rfl | hz2
        · exact keyLt_isSome_symm (hxany y hy2)
        · exact ihc y hy2 z hz2

theorem insertSorted_sorted (x : Key × Value) : ∀ (l r : List (Key × Value)),
    x.1 ∉ l.map Prod.fst → StrictSortedK l → insertSorted x l = .ok r → StrictSortedK r := by
  intro l
  induction l with
  | nil =>
    intro r _ _ h
    simp only [insertSorted, Except.ok.injEq] at h
    subst h
    exact List.pairwise_singleton _ _
  | cons y ys ih =>
    intro r hx hs h
    simp only [List.map_cons, List.mem_cons] at hx
    push_neg at hx
    obtain ⟨hy_all, hys⟩ := List.pairwise_cons.mp hs
    simp only [insertSorted] at h
    cases hk : keyLt x.1 y.1 with
    | none => rw [hk] at h; cases h
    | some b =>
      rw [hk] at h
      cases b
      · cases hi : insertSorted x ys with
        | error e => rw [hi] at h; cases h
        | ok r2 =>
          rw [hi] at h
          injection h with h
          subst h
          have hr2 : StrictSortedK r2 := ih r2 hx.2 hys hi
          refine List.Pairwise.cons ?_ hr2
          intro z hz
          have hz2 : z ∈ x :: ys := (insertSorted_perm x ys r2 hi).mem_iff.mp hz
          rcases List.mem_cons.mp hz2 with rfl | hz3
          · exact keyLt_false_of_ne hk hx.1
          · exact hy_all z hz3
      · injection h with h
        subst h
        refine List.Pairwise.cons ?_ hs
        intro z hz
        rcases List.mem_cons.mp hz with rfl | hz2
        · exact hk
        · exact keyLt_trans hk (hy_all z hz2)

theorem sortItems_sorted : ∀ (l r : List (Key × Value)),
    (l.map Prod.fst).Nodup → sortItems l = .ok r → StrictSortedK r := by
  intro l
  induction l with
  | nil =>
    intro r _ h
    simp only [sortItems, Except.ok.injEq] at h
    subst h
    exact List.Pairwise.nil
  | cons x xs ih =>
    intro r hnd h
    simp only [sortItems] at h
    cases hs : sortItems xs with
    | error e => rw [hs] at h; cases h
    | ok r0 =>
      rw [hs] at h
      rw [List.map_cons, List.nodup_cons] at hnd
      have hx0 : x.1 ∉ r0.map Prod.fst := by
        intro hmem
        exact hnd.1 (((sortItems_perm xs r0 hs).map Prod.fst).mem_iff.mp hmem)
      exact insertSorted_sorted x r0 r hx0 (ih r0 hnd.2 hs) h

theorem strictSortedK_unique : ∀ (l1 l2 : List (Key × Value)),
    StrictSortedK l1 → StrictSortedK l2 → (∀ p, p ∈ l1 ↔ p ∈ l2) → l1 = l2 := by
  intro l1
  induction l1 with
  | nil =>
    intro l2 _ _ hm
    symm
    rw [List.eq_nil_iff_forall_not_mem]
    intro p hp
    exact absurd ((hm p).mpr hp) (List.not_mem_nil p)
  | cons x t1 ih =>
    intro l2 h1 h2 hm
    cases l2 with
    | nil => exact absurd ((hm x).mp (List.mem_cons_self _ _)) (List.not_mem_nil x)
    | cons y t2 =>
      obtain ⟨h1a, h1b⟩ := List.pairwise_cons.mp h1
      obtain ⟨h2a, h2b⟩ := List.pairwise_cons.mp h2
      have hxy : x = y := by
        rcases List.mem_cons.mp ((hm x).mp (List.mem_cons_self _ _)) with h | hx2
        · exact h
        · rcases List.mem_cons.mp ((hm y).mpr (List.mem_cons_self _ _)) with h | hy1
          · exact h.symm
          · have hc := keyLt_trans (h1a y hy1) (h2a x hx2)
            rw [keyLt_refl_some] at hc
            simp at hc
      subst hxy
      have hx2 : x ∉ t2 := by
        intro hmem
        have hc := h2a x hmem
        rw [show keyLtTrue x x = (keyLt x.1 x.1 = some true) from rfl, keyLt_refl_some] at hc
        simp at hc
      have hx1 : x ∉ t1 := by
        intro hmem
        have hc := h1a x hmem
        rw [show keyLtTrue x x = (keyLt x.1 x.1 = some true) from rfl, keyLt_refl_some] at hc
        simp at hc
      have hm2 : ∀ p, p ∈ t1 ↔ p ∈ t2 := by
        intro p
        constructor
        · intro hp
          rcases List.mem_cons.mp ((hm p).mp (List.mem_cons_of_mem _ hp)) with rfl | h
          · exact absurd hp hx1
          · exact h
        · intro hp
          rcases List.mem_cons.mp ((hm p).mpr (List.mem_cons_of_mem _ hp)) with rfl | h
          · exact absurd hp hx2
          · exact h
      rw [ih t2 h1b h2b hm2]

/-! ## Basic heap lemmas -/

theorem mem_assocSet {α β : Type} [DecidableEq α] {l : List (α × β)} {k : α} {v : β} :
    ∀ {p : α × β}, p ∈ assocSet l k v → p ∈ l ∨ p = (k, v) := by
  induction l with
  | nil =>
    intro p hp
    simp only [assocSet, List.mem_singleton] at hp
    exact Or.inr hp
  | cons q rest ih =>
    intro p hp
    obtain ⟨a, b⟩ := q
    by_cases ha : a = k
    · subst ha
      simp only [assocSet, if_pos rfl] at hp
      rcases List.mem_cons.mp hp with rfl | hp
      · exact Or.inr rfl
      · exact Or.inl (List.mem_cons_of_mem _ hp)
    · simp only [assocSet, if_neg ha] at hp
      rcases List.mem_cons.mp hp with rfl | hp
      · exact Or.inl (List.mem_cons_self _ _)
      · rcases ih hp with h | h
        · exact Or.inl (List.mem_cons_of_mem _ h)
        · exact Or.inr h

theorem mem_snd_assocSet {α β : Type} [DecidableEq α] {l : List (α × β)} {k : α} {v w : β}
    (h : w ∈ (assocSet l k v).map Prod.snd) : w ∈ l.map Prod.snd ∨ w = v := by
  rcases List.mem_map.mp h with ⟨p, hp, hw⟩
  rcases mem_assocSet hp with h2 | h2
  · exact Or.inl (List.mem_map.mpr ⟨p, h2, hw⟩)
  · subst h2
    exact Or.inr hw.symm

theorem lookupH_storeH (h : Heap) (b : Nat) (c : Cell) (a : Nat) :
    lookupH (storeH h b c) a = if a = b then some c else lookupH h a :=
  assocLookup_assocSet h.cells b a c

theorem lookupH_allocH (h : Heap) (c : Cell) (a : Nat) :
    lookupH (allocH h c).1 a = if h.next = a then some c else lookupH h a := rfl

theorem wfb_dom_lt {h : Heap} {a : Nat} (hw : wfb h = true) (hd : domH h a = true) :
    a < h.next := by
  unfold domH at hd
  cases hl : lookupH h a with
  | none => rw [hl] at hd; simp at hd
  | some c =>
    have hmem := assocLookup_mem hl
    have h2 := (List.all_eq_true.mp hw) (a, c) hmem
    simp only [Bool.and_eq_true, decide_eq_true_eq] at h2
    exact h2.1

theorem wfb_members {h : Heap} {a : Nat} {c : Cell} (hw : wfb h = true)
    (hl : lookupH h a = some c) : ∀ w ∈ cellHVals c, hvalRefOk h w = true := by
  intro w hwm
  have hmem := assocLookup_mem hl
  have h2 := (List.all_eq_true.mp hw) (a, c) hmem
  simp only [Bool.and_eq_true, decide_eq_true_eq] at h2
  exact (List.all_eq_true.mp h2.2) w hwm

theorem growsFresh_refl (h : Heap) : GrowsFresh h h := ⟨le_refl _, fun _ _ => rfl⟩

theorem growsFresh_trans {h1 h2 h3 : Heap} (g1 : GrowsFresh h1 h2) (g2 : GrowsFresh h2 h3) :
    GrowsFresh h1 h3 :=
  ⟨le_trans g1.1 g2.1, fun a ha => (g2.2 a (lt_of_lt_of_le ha g1.1)).trans (g1.2 a ha)⟩

theorem growsFresh_alloc (h : Heap) (c : Cell) : GrowsFresh h (allocH h c).1 := by
  refine ⟨Nat.le_succ _, ?_⟩
  intro a ha
  rw [lookupH_allocH, if_neg (show ¬ h.next = a by omega)]

theorem growsFresh_store {h : Heap} (b : Nat) (c : Cell) (hb : h.next ≤ b) :
    GrowsFresh h (storeH h b c) := by
  refine ⟨le_refl _, ?_⟩
  intro a ha
  rw [lookupH_storeH, if_neg (show ¬ a = b by omega)]

theorem domH_growsFresh {h h' : Heap} {a : Nat} (hw : wfb h = true) (hg : GrowsFresh h h')
    (hd : domH h a = true) : domH h' a = true := by
  have hlt := wfb_dom_lt hw hd
  unfold domH at *
  rw [hg.2 a hlt]
  exact hd

theorem hvalRefOk_growsFresh {h h' : Heap} {w : HVal} (hw : wfb h = true) (hg : GrowsFresh h h')
    (hok : hvalRefOk h w = true) : hvalRefOk h' w = true := by
  cases w with
  | imm s => rfl
  | ref a => exact domH_growsFresh hw hg hok

theorem hvalRefOk_alloc {h : Heap} {c : Cell} {w : HVal} (hok : hvalRefOk h w = true) :
    hvalRefOk (allocH h c).1 w = true := by
  cases w with
  | imm s => rfl
  | ref a =>
    show (lookupH (allocH h c).1 a).isSome = true
    have hok2 : (lookupH h a).isSome = true := hok
    rw [lookupH_allocH]
    by_cases hn : h.next = a
    · rw [if_pos hn]; rfl
    · rw [if_neg hn]; exact hok2

theorem hvalRefOk_store {h : Heap} {b : Nat} {c : Cell} {w : HVal}
    (hok : hvalRefOk h w = true) : hvalRefOk (storeH h b c) w = true := by
  cases w with
  | imm s => rfl
  | ref a =>
    show (lookupH (storeH h b c) a).isSome = true
    have hok2 : (lookupH h a).isSome = true := hok
    rw [lookupH_storeH]
    by_cases hn : a = b
    · rw [if_pos hn]; rfl
    · rw [if_neg hn]; exact hok2

theorem cellOk_alloc {h : Heap} {c c2 : Cell} (hok : cellOk h c2 = true) :
    cellOk (allocH h c).1 c2 = true := by
  unfold cellOk at *
  rw [List.all_eq_true] at *
  exact fun w hw => hvalRefOk_alloc (hok w hw)

theorem cellOk_store {h : Heap} {b : Nat} {c c2 : Cell} (hok : cellOk h c2 = true) :
    cellOk (storeH h b c) c2 = true := by
  unfold cellOk at *
  rw [List.all_eq_true] at *
  exact fun w hw => hvalRefOk_store (hok w hw)

theorem wfb_alloc {h : Heap} {c : Cell} (hw : wfb h = true) (hc : cellOk h c = true) :
    wfb (allocH h c).1 = true := by
  unfold wfb at *
  rw [List.all_eq_true] at *
  intro p hp
  rcases List.mem_cons.mp hp with rfl | hp2
  · simp only [Bool.and_eq_true, decide_eq_true_eq]
    exact ⟨by simp [allocH], cellOk_alloc hc⟩
  · have h2 := hw p hp2
    simp only [Bool.and_eq_true, decide_eq_true_eq] at h2 ⊢
    exact ⟨by simp [allocH]; omega, cellOk_alloc h2.2⟩

theorem wfb_store {h : Heap} {b : Nat} {c : Cell} (hw : wfb h = true)
    (hd : domH h b = true) (hc : cellOk h c = true) : wfb (storeH h b c) = true := by
  have hblt := wfb_dom_lt hw hd
  unfold wfb at *
  rw [List.all_eq_true] at *
  intro p hp
  rcases mem_assocSet hp with hp2 | hp2
  · have h2 := hw p hp2
    simp only [Bool.and_eq_true, decide_eq_true_eq] at h2 ⊢
    exact ⟨h2.1, cellOk_store h2.2⟩
  · subst hp2
    simp only [Bool.and_eq_true, decide_eq_true_eq]
    exact ⟨hblt, cellOk_store hc⟩

theorem regionClosed_alloc {h : Heap} {n : Nat} {c : Cell} (hrc : RegionClosed h n)
    (hc : ∀ b, HVal.ref b ∈ cellHVals c → n ≤ b) : RegionClosed (allocH h c).1 n := by
  intro a c2 hl hna b hb
  rw [lookupH_allocH] at hl
  by_cases hn : h.next = a
  · rw [if_pos hn] at hl
    injection hl with hl
    subst hl
    exact hc b hb
  · rw [if_neg hn] at hl
    exact hrc a c2 hl hna b hb

theorem regionClosed_store {h : Heap} {n : Nat} {b0 : Nat} {c : Cell} (hrc : RegionClosed h n)
    (hc : ∀ b, HVal.ref b ∈ cellHVals c → n ≤ b) : RegionClosed (storeH h b0 c) n := by
  intro a c2 hl hna b hb
  rw [lookupH_storeH] at hl
  by_cases hn : a = b0
  · rw [if_pos hn] at hl
    injection hl with hl
    subst hl
    exact hc b hb
  · rw [if_neg hn] at hl
    exact hrc a c2 hl hna b hb

theorem regionClosed_next {h : Heap} (hw : wfb h = true) : RegionClosed h h.next := by
  intro a c hl hna b _
  have hx : a < h.next := wfb_dom_lt hw (by unfold domH; rw [hl]; rfl)
  exact absurd hx (Nat.not_lt.mpr hna)

/-! ## Reachability lemmas -/

theorem hreach_region {h : Heap} {n : Nat} (hrc : RegionClosed h n) :
    ∀ {v : HVal} {b : Nat}, HReach h v b → (∀ a, v = HVal.ref a → n ≤ a) → n ≤ b := by
  intro v b hr
  induction hr with
  | here a => intro hroot; exact hroot a rfl
  | step a c w b2 hl hwm _ ih =>
    intro hroot
    have ha : n ≤ a := hroot a rfl
    apply ih
    intro a2 hw2
    subst hw2
    exact hrc a c hl ha a2 hwm

theorem hreach_old {h h' : Heap} (hw : wfb h = true) (hg : GrowsFresh h h') :
    ∀ {v : HVal} {b : Nat}, HReach h' v b → (∀ a, v = HVal.ref a → domH h a = true) →
    domH h b = true ∧ b < h.next := by
  intro v b hr
  induction hr with
  | here a =>
    intro hroot
    have hd := hroot a rfl
    exact ⟨hd, wfb_dom_lt hw hd⟩
  | step a c w b2 hl hwm _ ih =>
    intro hroot
    have hda : domH h a = true := hroot a rfl
    have hlt := wfb_dom_lt hw hda
    rw [hg.2 a hlt] at hl
    apply ih
    intro a2 hw2
    subst hw2
    have hok := wfb_members hw hl _ hwm
    exact hok

/-! ## Unfolding equations for the fueled heap functions -/

theorem readValV_imm (f : Nat) (h : Heap) (s : Scalar) :
    readValV f h (.imm s) = some (scalarVal s) := by
  cases f <;> rfl

theorem readValV_zero_ref (h : Heap) (a : Nat) : readValV 0 h (.ref a) = none := rfl

theorem readValV_succ_ref (f : Nat) (h : Heap) (a : Nat) :
    readValV (f+1) h (.ref a) =
      match lookupH h a with
      | some (.dcell l) =>
        match readEntriesV f h l with
        | some es => some (.vDict es)
        | none => none
      | some (.lcell l) =>
        match readListV f h l with
        | some vs => some (.vList vs)
        | none => none
      | none => none := rfl

theorem readEntriesV_nil (f : Nat) (h : Heap) : readEntriesV f h [] = some [] := rfl

theorem readEntriesV_cons (f : Nat) (h : Heap) (k : Key) (v : HVal) (rest : List (Key × HVal)) :
    readEntriesV f h ((k, v) :: rest) =
      match readValV f h v with
      | some w =>
        match readEntriesV f h rest with
        | some ws => some ((k, w) :: ws)
        | none => none
      | none => none := rfl

theorem readListV_nil (f : Nat) (h : Heap) : readListV f h [] = some [] := rfl

theorem readListV_cons (f : Nat) (h : Heap) (v : HVal) (rest : List HVal) :
    readListV f h (v :: rest) =
      match readValV f h v with
      | some w =>
        match readListV f h rest with
        | some ws => some (w :: ws)
        | none => none
      | none => none := rfl

theorem deepCopyV_imm (f : Nat) (h : Heap) (s : Scalar) :
    deepCopyV f h (.imm s) = some (h, .imm s) := by
  cases f <;> rfl

theorem deepCopyV_zero_ref (h : Heap) (a : Nat) : deepCopyV 0 h (.ref a) = none := rfl

theorem deepCopyV_succ_ref (f : Nat) (h : Heap) (a : Nat) :
    deepCopyV (f+1) h (.ref a) =
      match lookupH h a with
      | some (.dcell l) =>
        match deepCopyEntriesH f h l with
        | some (h1, l2) => some ((allocH h1 (.dcell l2)).1, .ref (allocH h1 (.dcell l2)).2)
        | none => none
      | some (.lcell l) =>
        match deepCopyListH f h l with
        | some (h1, l2) => some ((allocH h1 (.lcell l2)).1, .ref (allocH h1 (.lcell l2)).2)
        | none => none
      | none => none := rfl

theorem deepCopyEntriesH_nil (f : Nat) (h : Heap) : deepCopyEntriesH f h [] = some (h, []) := rfl

theorem deepCopyEntriesH_cons (f : Nat) (h : Heap) (k : Key) (v : HVal)
    (rest : List (Key × HVal)) :
    deepCopyEntriesH f h ((k, v) :: rest) =
      match deepCopyV f h v with
      | some (h1, v2) =>
        match deepCopyEntriesH f h1 rest with
        | some (h2, rest2) => some (h2, (k, v2) :: rest2)
        | none => none
      | none => none := rfl

theorem deepCopyListH_nil (f : Nat) (h : Heap) : deepCopyListH f h [] = some (h, []) := rfl

theorem deepCopyListH_cons (f : Nat) (h : Heap) (v : HVal) (rest : List HVal) :
    deepCopyListH f h (v :: rest) =
      match deepCopyV f h v with
      | some (h1, v2) =>
        match deepCopyListH f h1 rest with
        | some (h2, rest2) => some (h2, v2 :: rest2)
        | none => none
      | none => none := rfl

theorem deepMergeH_zero (h : Heap) (ab ao : Nat) : deepMergeH 0 h ab ao = none := rfl

theorem deepMergeH_succ (f : Nat) (h : Heap) (ab ao : Nat) :
    deepMergeH (f+1) h ab ao =
      match deepCopyV (f+1) h (.ref ab) with
      | some (h1, .ref ra) =>
        match lookupH h1 ao with
        | some (.dcell items) => mergeLoopH f h1 ra items
        | _ => none
      | _ => none := rfl

theorem mergeLoopH_nil (f : Nat) (h : Heap) (ra : Nat) : mergeLoopH f h ra [] = some (h, ra) := rfl

theorem mergeLoopH_cons (f : Nat) (h : Heap) (ra : Nat) (k : Key) (v : HVal)
    (rest : List (Key × HVal)) :
    mergeLoopH f h ra ((k, v) :: rest) =
      match lookupH h ra with
      | some (.dcell l) =>
        match assocLookup l k, v with
        | some (.ref rb), .ref vb =>
          match lookupH h rb, lookupH h vb with
          | some (.dcell _), some (.dcell _) =>
            match deepMergeH f h rb vb with
            | some (h2, rm) =>
              match lookupH h2 ra with
              | some (.dcell l2) =>
                  mergeLoopH f (storeH h2 ra (.dcell (assocSet l2 k (.ref rm)))) ra rest
              | _ => none
            | none => none
          | _, _ => mergeElseH f h ra l k v rest
        | _, _ => mergeElseH f h ra l k v rest
      | _ => none := rfl

theorem mergeElseH_eq (f : Nat) (h : Heap) (ra : Nat) (l : List (Key × HVal)) (k : Key)
    (v : HVal) (rest : List (Key × HVal)) :
    mergeElseH f h ra l k v rest =
      match deepCopyV f h v with
      | some (h2, v2) => mergeLoopH f (storeH h2 ra (.dcell (assocSet l k v2))) ra rest
      | none => none := rfl

/-! ## Frame and extension lemmas for reading back values -/

theorem readVal_frame : ∀ (f : Nat) (h : Heap) (b : Nat) (c : Cell) (v : HVal),
    ¬ HReach h v b → readValV f (storeH h b c) v = readValV f h v := by
  intro f
  induction f with
  | zero =>
    intro h b c v _
    cases v with
    | imm s => rw [readValV_imm, readValV_imm]
    | ref a => rw [readValV_zero_ref, readValV_zero_ref]
  | succ f ihf =>
    intro h b c v hnr
    cases v with
    | imm s => rw [readValV_imm, readValV_imm]
    | ref a =>
      have hab : a ≠ b := fun hh => hnr (hh ▸ HReach.here a)
      rw [readValV_succ_ref, readValV_succ_ref, lookupH_storeH, if_neg hab]
      cases hl : lookupH h a with
      | none => rfl
      | some cc =>
        have hmem : ∀ w ∈ cellHVals cc, ¬ HReach h w b :=
          fun w hw hr => hnr (HReach.step a cc w b hl hw hr)
        cases cc with
        | dcell l =>
          have hent : ∀ l2 : List (Key × HVal), (∀ w ∈ l2.map Prod.snd, ¬ HReach h w b) →
              readEntriesV f (storeH h b c) l2 = readEntriesV f h l2 := by
            intro l2
            induction l2 with
            | nil => intro _; rw [readEntriesV_nil, readEntriesV_nil]
            | cons p rest ihl =>
              intro hm
              obtain ⟨k, w⟩ := p
              rw [readEntriesV_cons, readEntriesV_cons,
                ihf h b c w (hm w (by simp)),
                ihl (fun w2 hw2 => hm w2 (by simp only [List.map_cons, List.mem_cons]; exact Or.inr hw2))]
          show (match readEntriesV f (storeH h b c) l with
                | some es => some (Value.vDict es)
                | none => none) =
               (match readEntriesV f h l with
                | some es => some (Value.vDict es)
                | none => none)
          rw [hent l hmem]
        | lcell l =>
          have hlst : ∀ l2 : List HVal, (∀ w ∈ l2, ¬ HReach h w b) →
              readListV f (storeH h b c) l2 = readListV f h l2 := by
            intro l2
            induction l2 with
            | nil => intro _; rw [readListV_nil, readListV_nil]
            | cons w rest ihl =>
              intro hm
              rw [readListV_cons, readListV_cons,
                ihf h b c w (hm w (List.mem_cons_self _ _)),
                ihl (fun w2 hw2 => hm w2 (List.mem_cons_of_mem _ hw2))]
          show (match readListV f (storeH h b c) l with
                | some vs => some (Value.vList vs)
                | none => none) =
               (match readListV f h l with
                | some vs => some (Value.vList vs)
                | none => none)
          rw [hlst l hmem]

theorem readVal_growsFresh : ∀ (f : Nat) (h h' : Heap), wfb h = true → GrowsFresh h h' →
    ∀ v : HVal, (∀ a, v = HVal.ref a → domH h a = true) → readValV f h' v = readValV f h v := by
  intro f
  induction f with
  | zero =>
    intro h h' _ _ v _
    cases v with
    | imm s => rw [readValV_imm, readValV_imm]
    | ref a => rw [readValV_zero_ref, readValV_zero_ref]
  | succ f ihf =>
    intro h h' hw hg v hroot
    cases v with
    | imm s => rw [readValV_imm, readValV_imm]
    | ref a =>
      have hda : domH h a = true := hroot a rfl
      have hlt := wfb_dom_lt hw hda
      rw [readValV_succ_ref, readValV_succ_ref, hg.2 a hlt]
      cases hl : lookupH h a with
      | none => rfl
      | some cc =>
        have hmem := wfb_members hw hl
        cases cc with
        | dcell l =>
          have hent : ∀ l2 : List (Key × HVal), (∀ w ∈ l2.map Prod.snd, hvalRefOk h w = true) →
              readEntriesV f h' l2 = readEntriesV f h l2 := by
            intro l2
            induction l2 with
            | nil => intro _; rw [readEntriesV_nil, readEntriesV_nil]
            | cons p rest ihl =>
              intro hm
              obtain ⟨k, w⟩ := p
              rw [readEntriesV_cons, readEntriesV_cons,
                ihf h h' hw hg w (fun a2 heq => by subst heq; exact hm (HVal.ref a2) (by simp)),
                ihl (fun w2 hw2 => hm w2 (by simp only [List.map_cons, List.mem_cons]; exact Or.inr hw2))]
          show (match readEntriesV f h' l with
                | some es => some (Value.vDict es)
                | none => none) =
               (match readEntriesV f h l with
                | some es => some (Value.vDict es)
                | none => none)
          rw [hent l hmem]
        | lcell l =>
          have hlst : ∀ l2 : List HVal, (∀ w ∈ l2, hvalRefOk h w = true) →
              readListV f h' l2 = readListV f h l2 := by
            intro l2
            induction l2 with
            | nil => intro _; rw [readListV_nil, readListV_nil]
            | cons w rest ihl =>
              intro hm
              rw [readListV_cons, readListV_cons,
                ihf h h' hw hg w (fun a2 heq => by subst heq; exact hm (HVal.ref a2) (List.mem_cons_self _ _)),
                ihl (fun w2 hw2 => hm w2 (List.mem_cons_of_mem _ hw2))]
          show (match readListV f h' l with
                | some vs => some (Value.vList vs)
                | none => none) =
               (match readListV f h l with
                | some vs => some (Value.vList vs)
                | none => none)
          rw [hlst l hmem]

theorem domH_alloc_self (h : Heap) (c : Cell) : domH (allocH h c).1 (allocH h c).2 = true := by
  unfold domH
  rw [show (allocH h c).2 = h.next from rfl, lookupH_allocH, if_pos rfl]
  rfl

/-! ## `deep_copy` heap invariants -/

theorem deepCopyEntries_inv_of (f : Nat) (hv : DeepCopyVInv f) : DeepCopyEntriesInv f := by
  intro h l
  induction l generalizing h with
  | nil =>
    intro h' l' hw hex
    rw [deepCopyEntriesH_nil] at hex
    injection hex with hex
    injection hex with hex1 hex2
    subst hex1; subst hex2
    exact ⟨growsFresh_refl h, hw, by intro a ha; simp at ha, fun n _ hrc => hrc⟩
  | cons p rest ih =>
    intro h' l' hw hex
    obtain ⟨k, v⟩ := p
    rw [deepCopyEntriesH_cons] at hex
    split at hex
    · rename_i h1 v1 hc1
      split at hex
      · rename_i h2 rest2 hc2
        injection hex with hex
        injection hex with hex1 hex2
        subst hex1; subst hex2
        obtain ⟨g1, w1, root1, rc1⟩ := hv h v h1 v1 hw hc1
        obtain ⟨g2, w2, refs2, rc2⟩ := ih h1 h2 rest2 w1 hc2
        refine ⟨growsFresh_trans g1 g2, w2, ?_, ?_⟩
        · intro a ha
          simp only [List.map_cons, List.mem_cons] at ha
          rcases ha with ha | ha
          · obtain ⟨h3, h4⟩ := root1 a ha.symm
            exact ⟨h3, domH_growsFresh w1 g2 h4⟩
          · obtain ⟨h3, h4⟩ := refs2 a ha
            exact ⟨le_trans g1.1 h3, h4⟩
        · intro n hn hrc
          exact rc2 n (le_trans hn g1.1) (rc1 n hn hrc)
      · cases hex
    · cases hex

theorem deepCopyList_inv_of (f : Nat) (hv : DeepCopyVInv f) : DeepCopyListInv f := by
  intro h l
  induction l generalizing h with
  | nil =>
    intro h' l' hw hex
    rw [deepCopyListH_nil] at hex
    injection hex with hex
    injection hex with hex1 hex2
    subst hex1; subst hex2
    exact ⟨growsFresh_refl h, hw, by intro a ha; simp at ha, fun n _ hrc => hrc⟩
  | cons v rest ih =>
    intro h' l' hw hex
    rw [deepCopyListH_cons] at hex
    split at hex
    · rename_i h1 v1 hc1
      split at hex
      · rename_i h2 rest2 hc2
        injection hex with hex
        injection hex with hex1 hex2
        subst hex1; subst hex2
        obtain ⟨g1, w1, root1, rc1⟩ := hv h v h1 v1 hw hc1
        obtain ⟨g2, w2, refs2, rc2⟩ := ih h1 h2 rest2 w1 hc2
        refine ⟨growsFresh_trans g1 g2, w2, ?_, ?_⟩
        · intro a ha
          rcases List.mem_cons.mp ha with ha | ha
          · obtain ⟨h3, h4⟩ := root1 a ha.symm
            exact ⟨h3, domH_growsFresh w1 g2 h4⟩
          · obtain ⟨h3, h4⟩ := refs2 a ha
            exact ⟨le_trans g1.1 h3, h4⟩
        · intro n hn hrc
          exact rc2 n (le_trans hn g1.1) (rc1 n hn hrc)
      · cases hex
    · cases hex

theorem deepCopyV_inv : ∀ f : Nat, DeepCopyVInv f := by
  intro f
  induction f with
  | zero =>
    intro h v h' v' hw hex
    cases v with
    | imm s =>
      rw [deepCopyV_imm] at hex
      injection hex with hex
      injection hex with hex1 hex2
      subst hex1; subst hex2
      refine ⟨growsFresh_refl h, hw, ?_, fun n _ hrc => hrc⟩
      intro a ha
      cases ha
    | ref a => rw [deepCopyV_zero_ref] at hex; cases hex
  | succ f ihf =>
    intro h v h' v' hw hex
    cases v with
    | imm s =>
      rw [deepCopyV_imm] at hex
      injection hex with hex
      injection hex with hex1 hex2
      subst hex1; subst hex2
      refine ⟨growsFresh_refl h, hw, ?_, fun n _ hrc => hrc⟩
      intro a ha
      cases ha
    | ref a =>
      rw [deepCopyV_succ_ref] at hex
      split at hex
      · rename_i l hl
        split at hex
        · rename_i h1 l2 hc
          injection hex with hex
          injection hex with hex1 hex2
          subst hex1; subst hex2
          obtain ⟨g1, w1, refs1, rc1⟩ := deepCopyEntries_inv_of f ihf h l h1 l2 hw hc
          have hcellok : cellOk h1 (Cell.dcell l2) = true := by
            unfold cellOk
            rw [List.all_eq_true]
            intro w hwm
            cases w with
            | imm s => rfl
            | ref b => exact (refs1 b hwm).2
          refine ⟨growsFresh_trans g1 (growsFresh_alloc h1 _), wfb_alloc w1 hcellok, ?_, ?_⟩
          · intro a2 ha2
            injection ha2 with ha2
            subst ha2
            exact ⟨g1.1, domH_alloc_self h1 _⟩
          · intro n hn hrc
            refine regionClosed_alloc (rc1 n hn hrc) ?_
            intro b hb
            exact le_trans hn (refs1 b hb).1
        · cases hex
      · rename_i l hl
        split at hex
        · rename_i h1 l2 hc
          injection hex with hex
          injection hex with hex1 hex2
          subst hex1; subst hex2
          obtain ⟨g1, w1, refs1, rc1⟩ := deepCopyList_inv_of f ihf h l h1 l2 hw hc
          have hcellok : cellOk h1 (Cell.lcell l2) = true := by
            unfold cellOk
            rw [List.all_eq_true]
            intro w hwm
            cases w with
            | imm s => rfl
            | ref b => exact (refs1 b hwm).2
          refine ⟨growsFresh_trans g1 (growsFresh_alloc h1 _), wfb_alloc w1 hcellok, ?_, ?_⟩
          · intro a2 ha2
            injection ha2 with ha2
            subst ha2
            exact ⟨g1.1, domH_alloc_self h1 _⟩
          · intro n hn hrc
            refine regionClosed_alloc (rc1 n hn hrc) ?_
            intro b hb
            exact le_trans hn (refs1 b hb).1
        · cases hex
      · cases hex

theorem domH_store_self (h : Heap) (b : Nat) (c : Cell) : domH (storeH h b c) b = true := by
  unfold domH
  rw [lookupH_storeH, if_pos rfl]
  rfl

/-! ## `deep_merge_dicts` heap invariants -/

theorem mergeLoop_inv_of (f : Nat) (hdm : MergeHInv f) : MergeLoopInv f := by
  intro items
  induction items with
  | nil =>
    intro h ra h' r hw hex
    rw [mergeLoopH_nil] at hex
    injection hex with hex
    injection hex with hex1 hex2
    subst hex1; subst hex2
    exact ⟨rfl, le_refl _, fun x _ _ => rfl, hw, fun hd => hd, fun n _ _ hrc => hrc⟩
  | cons p rest ih =>
    intro h ra h' r hw hex
    obtain ⟨k, v⟩ := p
    rw [mergeLoopH_cons] at hex
    cases hra : lookupH h ra with
    | none => rw [hra] at hex; dsimp only at hex; cases hex
    | some cra =>
      cases cra with
      | lcell l => rw [hra] at hex; dsimp only at hex; cases hex
      | dcell l =>
        rw [hra] at hex
        dsimp only at hex
        have hdra : domH h ra = true := by unfold domH; rw [hra]; rfl
        have hralt : ra < h.next := wfb_dom_lt hw hdra
        have helse : mergeElseH f h ra l k v rest = some (h', r) →
            r = ra ∧ h.next ≤ h'.next ∧
            (∀ x, x < h.next → x ≠ ra → lookupH h' x = lookupH h x) ∧
            wfb h' = true ∧ (domH h ra = true → domH h' ra = true) ∧
            (∀ n, n ≤ h.next → n ≤ ra → RegionClosed h n → RegionClosed h' n) := by
          intro hex2
          rw [mergeElseH_eq] at hex2
          cases hdc2 : deepCopyV f h v with
          | none => rw [hdc2] at hex2; dsimp only at hex2; cases hex2
          | some p2 =>
            obtain ⟨h2, v2⟩ := p2
            rw [hdc2] at hex2
            dsimp only at hex2
            obtain ⟨g1, w1, root1, rc1⟩ := deepCopyV_inv f h v h2 v2 hw hdc2
            have hdra2 : domH h2 ra = true := domH_growsFresh hw g1 hdra
            have hra2 : lookupH h2 ra = some (Cell.dcell l) := by
              rw [g1.2 ra hralt]; exact hra
            have hmemok : ∀ w ∈ (assocSet l k v2).map Prod.snd, hvalRefOk h2 w = true := by
              intro w hwm
              rcases mem_snd_assocSet hwm with hwm2 | hwm2
              · exact hvalRefOk_growsFresh hw g1 (wfb_members hw hra w hwm2)
              · rw [hwm2]
                cases v2 with
                | imm s => rfl
                | ref b => exact (root1 b rfl).2
            have hcellok : cellOk h2 (Cell.dcell (assocSet l k v2)) = true := by
              unfold cellOk
              rw [List.all_eq_true]
              exact hmemok
            have w3 : wfb (storeH h2 ra (Cell.dcell (assocSet l k v2))) = true :=
              wfb_store w1 hdra2 hcellok
            obtain ⟨req, hnext3, hlook3, w4, hdom4, rc4⟩ := ih _ ra h' r w3 hex2
            refine ⟨req, ?_, ?_, w4, ?_, ?_⟩
            · calc h.next ≤ h2.next := g1.1
                _ ≤ h'.next := hnext3
            · intro x hx hxra
              rw [hlook3 x (lt_of_lt_of_le hx g1.1) hxra, lookupH_storeH, if_neg hxra,
                g1.2 x hx]
            · intro _
              exact hdom4 (domH_store_self h2 ra _)
            · intro n hn hnra hrc
              have hrc2 : RegionClosed h2 n := rc1 n hn hrc
              have hrc3 : RegionClosed (storeH h2 ra (Cell.dcell (assocSet l k v2))) n := by
                refine regionClosed_store hrc2 ?_
                intro b hb
                rcases mem_snd_assocSet hb with hb2 | hb2
                · exact hrc2 ra _ hra2 hnra b hb2
                · subst hb2
                  exact le_trans hn (root1 b rfl).1
              exact rc4 n (le_trans hn g1.1) hnra hrc3
        cases hlk : assocLookup l k with
        | none => rw [hlk] at hex; dsimp only at hex; exact helse hex
        | some w1 =>
          cases w1 with
          | imm s => rw [hlk] at hex; dsimp only at hex; exact helse hex
          | ref rb =>
            cases v with
            | imm s => rw [hlk] at hex; dsimp only at hex; exact helse hex
            | ref vb =>
              rw [hlk] at hex
              dsimp only at hex
              cases hrb : lookupH h rb with
              | none => rw [hrb] at hex; dsimp only at hex; exact helse hex
              | some crb =>
                cases crb with
                | lcell lb => rw [hrb] at hex; dsimp only at hex; exact helse hex
                | dcell lb =>
                  rw [hrb] at hex
                  cases hvb : lookupH h vb with
                  | none => rw [hvb] at hex; dsimp only at hex; exact helse hex
                  | some cvb =>
                    cases cvb with
                    | lcell lv => rw [hvb] at hex; dsimp only at hex; exact helse hex
                    | dcell lv =>
                      rw [hvb] at hex
                      dsimp only at hex
                      cases hdm2 : deepMergeH f h rb vb with
                      | none => rw [hdm2] at hex; dsimp only at hex; cases hex
                      | some pm =>
                        obtain ⟨h2, rm⟩ := pm
                        rw [hdm2] at hex
                        dsimp only at hex
                        cases hra2 : lookupH h2 ra with
                        | none => rw [hra2] at hex; dsimp only at hex; cases hex
                        | some cra2 =>
                          cases cra2 with
                          | lcell l2 => rw [hra2] at hex; dsimp only at hex; cases hex
                          | dcell l2 =>
                            rw [hra2] at hex
                            dsimp only at hex
                            obtain ⟨gm, wm, rmfresh, rmdom, rcm⟩ := hdm h rb vb h2 rm hw hdm2
                            have hdra2 : domH h2 ra = true := domH_growsFresh hw gm hdra
                            have hmemok : ∀ w ∈ (assocSet l2 k (HVal.ref rm)).map Prod.snd,
                                hvalRefOk h2 w = true := by
                              intro w hwm
                              rcases mem_snd_assocSet hwm with hwm2 | hwm2
                              · exact wfb_members wm hra2 w hwm2
                              · subst hwm2
                                exact rmdom
                            have hcellok :
                                cellOk h2 (Cell.dcell (assocSet l2 k (HVal.ref rm))) = true := by
                              unfold cellOk
                              rw [List.all_eq_true]
                              exact hmemok
                            have w3 :
                                wfb (storeH h2 ra (Cell.dcell (assocSet l2 k (HVal.ref rm)))) = true :=
                              wfb_store wm hdra2 hcellok
                            obtain ⟨req, hnext3, hlook3, w4, hdom4, rc4⟩ := ih _ ra h' r w3 hex
                            refine ⟨req, ?_, ?_, w4, ?_, ?_⟩
                            · calc h.next ≤ h2.next := gm.1
                                _ ≤ h'.next := hnext3
                            · intro x hx hxra
                              rw [hlook3 x (lt_of_lt_of_le hx gm.1) hxra, lookupH_storeH,
                                if_neg hxra, gm.2 x hx]
                            · intro _
                              exact hdom4 (domH_store_self h2 ra _)
                            · intro n hn hnra hrc
                              have hrc2 : RegionClosed h2 n := rcm n hn hrc
                              have hrc3 : RegionClosed
                                  (storeH h2 ra (Cell.dcell (assocSet l2 k (HVal.ref rm)))) n := by
                                refine regionClosed_store hrc2 ?_
                                intro b hb
                                rcases mem_snd_assocSet hb with hb2 | hb2
                                · exact hrc2 ra _ hra2 hnra b hb2
                                · injection hb2 with hb2
                                  subst hb2
                                  exact le_trans hn rmfresh
                              exact rc4 n (le_trans hn gm.1) hnra hrc3

theorem mergeH_inv : ∀ f : Nat, MergeHInv f := by
  intro f
  induction f with
  | zero =>
    intro h ab ao h' r hw hex
    rw [deepMergeH_zero] at hex
    cases hex
  | succ f ihf =>
    intro h ab ao h' r hw hex
    rw [deepMergeH_succ] at hex
    split at hex
    · rename_i h1 ra hdc
      split at hex
      · rename_i items hao
        obtain ⟨g1, w1, root1, rc1⟩ := deepCopyV_inv (f+1) h (.ref ab) h1 (.ref ra) hw hdc
        obtain ⟨hra_fresh, hra_dom⟩ := root1 ra rfl
        obtain ⟨req, hnext2, hlook2, w2, hdom2, rc2⟩ :=
          mergeLoop_inv_of f ihf items h1 ra h' r w1 hex
        subst req
        refine ⟨⟨le_trans g1.1 hnext2, ?_⟩, w2, hra_fresh, hdom2 hra_dom, ?_⟩
        · intro x hx
          have hxra : x ≠ r := by omega
          rw [hlook2 x (lt_of_lt_of_le hx g1.1) hxra, g1.2 x hx]
        · intro n hn hrc
          exact rc2 n (le_trans hn g1.1) (le_trans hn hra_fresh) (rc1 n hn hrc)
      · cases hex
    · cases hex

/-! ## Remaining helper lemmas -/

theorem assocLookup_of_mem_nodup {α β : Type} [DecidableEq α] :
    ∀ {l : List (α × β)} {k : α} {v : β},
    (k, v) ∈ l → (l.map Prod.fst).Nodup → assocLookup l k = some v := by
  intro l
  induction l with
  | nil => intro k v hm _; simp at hm
  | cons p rest ih =>
    intro k v hm hnd
    obtain ⟨a, b⟩ := p
    rw [List.map_cons, List.nodup_cons] at hnd
    rcases List.mem_cons.mp hm with heq | hm2
    · injection heq with h1 h2
      subst h1; subst h2
      simp [assocLookup]
    · have hak : ¬ a = k := by
        intro hh
        subst hh
        exact hnd.1 (List.mem_map.mpr ⟨(a, v), hm2, rfl⟩)
      simp only [assocLookup, if_neg hak]
      exact ih hm2 hnd.2

theorem mem_keys_merge_foldl (ds : List Dict) : ∀ (acc : Dict) (k : Key),
    k ∈ dictKeys (List.foldl dictUpdate acc ds) ↔
      k ∈ dictKeys acc ∨ ∃ d ∈ ds, k ∈ dictKeys d := by
  induction ds with
  | nil => intro acc k; simp
  | cons d rest ih =>
    intro acc k
    rw [List.foldl_cons, ih, mem_keys_dictUpdate]
    constructor
    · rintro ((h | h) | ⟨d2, hd2, h⟩)
      · exact Or.inl h
      · exact Or.inr ⟨d, List.mem_cons_self _ _, h⟩
      · exact Or.inr ⟨d2, List.mem_cons_of_mem _ hd2, h⟩
    · rintro (h | ⟨d2, hd2, h⟩)
      · exact Or.inl (Or.inl h)
      · rcases List.mem_cons.mp hd2 with rfl | hd3
        · exact Or.inl (Or.inr h)
        · exact Or.inr ⟨d2, hd3, h⟩

theorem readVal_ref_congr (f : Nat) (h : Heap) (x y : Nat)
    (hxy : lookupH h x = lookupH h y) : readValV f h (.ref x) = readValV f h (.ref y) := by
  cases f with
  | zero => rw [readValV_zero_ref, readValV_zero_ref]
  | succ f => rw [readValV_succ_ref, readValV_succ_ref, hxy]

theorem deep_merge_dicts_eq_mergeRun (base override : Dict) :
    deep_merge_dicts base override = mergeRun (deepCopyEntries base) override := by
  rw [deep_merge_dicts]

/-! ## The claims -/

/-- C1: `deep_merge_dicts(base, override)` equals the mapping obtained by
starting from a deep copy of `base` and then folding the specification's
per-key step over `override` in iteration order: if the key is present and
both the current value and the override value are mappings, the entry becomes
the recursive deep merge; otherwise it becomes a deep copy of the override
value.  The second conjunct is the specification's worked example. -/
theorem c1_deep_merge_follows_spec_algorithm :
    (∀ base override : Dict,
      deep_merge_dicts base override = override.foldl deepMergeStep (deepCopyEntries base)) ∧
    deep_merge_dicts
        [(Key.kStr "db", Value.vDict [(Key.kStr "host", Value.vStr "localhost"),
          (Key.kStr "port", Value.vInt 5432)])]
        [(Key.kStr "db", Value.vDict [(Key.kStr "port", Value.vInt 5433)]),
         (Key.kStr "cache", Value.vDict [(Key.kStr "enabled", Value.vBool true)])]
      = [(Key.kStr "db", Value.vDict [(Key.kStr "host", Value.vStr "localhost"),
          (Key.kStr "port", Value.vInt 5433)]),
         (Key.kStr "cache", Value.vDict [(Key.kStr "enabled", Value.vBool true)])] := by
  constructor
  · intro base override
    rw [deep_merge_dicts_eq_mergeRun, mergeRun_eq_foldl]
  · simp [deep_merge_dicts, mergeRun, deepCopyEntries, deep_copy, deepCopyList, dictSet,
      assocSet, dictLookup, assocLookup]

/-- C3: for dictionaries with unique, mutually orderable keys (so that
`freeze_dict` succeeds), the frozen forms are equal exactly when the
dictionaries contain the same key→value pairs — insertion order cannot be
told apart, and any difference in keys or values separates the frozen forms.
The closed conjuncts are the specification's worked examples. -/
theorem c3_freeze_equality_characterizes_pairs (d1 d2 : Dict)
    (l1 l2 : List (Key × Value)) (hnd1 : NodupKeys d1) (hnd2 : NodupKeys d2)
    (h1 : freeze_dict d1 = .ok l1) (h2 : freeze_dict d2 = .ok l2) :
    (freeze_dict d1 = freeze_dict d2 ↔ ∀ p, p ∈ d1 ↔ p ∈ d2) ∧
    freeze_dict [(Key.kStr "a", Value.vInt 1), (Key.kStr "b", Value.vInt 2)]
      = freeze_dict [(Key.kStr "b", Value.vInt 2), (Key.kStr "a", Value.vInt 1)] ∧
    freeze_dict [(Key.kStr "a", Value.vInt 1)] ≠ freeze_dict [(Key.kStr "a", Value.vInt 2)] ∧
    freeze_dict [(Key.kStr "a", Value.vInt 1)]
      ≠ freeze_dict [(Key.kStr "a", Value.vInt 1), (Key.kStr "b", Value.vInt 2)] := by
  refine ⟨?_, by decide, by decide, by decide⟩
  have hp1 := sortItems_perm d1 l1 h1
  have hp2 := sortItems_perm d2 l2 h2
  constructor
  · intro hfe
    rw [h1, h2] at hfe
    injection hfe with hfe
    intro p
    rw [← hp1.mem_iff, hfe, hp2.mem_iff]
  · intro hmm
    have hs1 := sortItems_sorted d1 l1 hnd1 h1
    have hs2 := sortItems_sorted d2 l2 hnd2 h2
    have hl : l1 = l2 := by
      refine strictSortedK_unique l1 l2 hs1 hs2 ?_
      intro p
      rw [hp1.mem_iff, hp2.mem_iff]
      exact hmm p
    rw [h1, h2, hl]

/-- C4: when a key exists in both dictionaries and the two values are not both
mappings, `deep_merge_dicts` resolves the conflict by wholesale replacement
with a deep copy of the override value — no element-wise merging of sequences
and no error (the function is total).  The closed conjunct is the
specification's mapping-vs-list example. -/
theorem c4_type_mismatch_replacement :
    (∀ (base override : Dict) (k : Key) (bv ov : Value),
      NodupKeys override →
      dictLookup base k = some bv → dictLookup override k = some ov →
      ¬(bv.isDict = true ∧ ov.isDict = true) →
      dictLookup (deep_merge_dicts base override) k = some (deep_copy ov)) ∧
    deep_merge_dicts [(Key.kStr "x", Value.vDict [(Key.kStr "a", Value.vInt 1)])]
        [(Key.kStr "x", Value.vList [Value.vInt 1, Value.vInt 2])]
      = [(Key.kStr "x", Value.vList [Value.vInt 1, Value.vInt 2])] := by
  constructor
  · intro base override k bv ov hnd hb ho hnot
    rw [deep_merge_dicts_eq_mergeRun]
    refine mergeRun_replace override _ k (deep_copy bv) ov hnd ?_ ho ?_
    · rw [show dictLookup (deepCopyEntries base) k = (dictLookup base k).map deep_copy from
        dictLookup_deepCopyEntries base k, hb]
      rfl
    · rw [isDict_deep_copy]
      exact hnot
  · simp [deep_merge_dicts, mergeRun, deepCopyEntries, deep_copy, deepCopyList, dictSet,
      assocSet, dictLookup, assocLookup]

/-- C6: `merge_dicts` yields the empty dictionary on no input, is the
left-to-right fold that writes every input pair into an initially empty
accumulator, and on any key the last input dictionary containing that key
wins with its entire value (no recursion into nested mappings).  The closed
conjunct is the specification's example. -/
theorem c6_flat_merge_precedence :
    merge_dicts [] = [] ∧
    (∀ ds : List Dict, merge_dicts ds = ds.foldl dictUpdate []) ∧
    (∀ (ds : List Dict) (k : Key), (∀ d ∈ ds, NodupKeys d) →
      dictLookup (merge_dicts ds) k = lastWins ds k) ∧
    merge_dicts [[(Key.kStr "a", Value.vInt 1), (Key.kStr "b", Value.vInt 2)],
        [(Key.kStr "b", Value.vInt 99), (Key.kStr "c", Value.vInt 3)]]
      = [(Key.kStr "a", Value.vInt 1), (Key.kStr "b", Value.vInt 99),
         (Key.kStr "c", Value.vInt 3)] := by
  refine ⟨rfl, fun ds => rfl, ?_, by decide⟩
  intro ds k hnd
  exact foldl_dictUpdate_lookup ds [] k hnd

/-- C8: `freeze_dict` succeeds exactly on dictionaries whose keys are mutually
orderable under Python's `<`; on any other dictionary the key-sort comparison
fails and the `OrderingError` is surfaced directly to the caller (the function
returns it — no fallback ordering exists in the model). -/
theorem c8_freeze_unorderable_keys :
    (∀ d : Dict, (∃ l, freeze_dict d = .ok l) ↔ MutuallyOrderable d) ∧
    (∀ d : Dict, ¬ MutuallyOrderable d → freeze_dict d = .error OrderingError.unorderable) := by
  have hmain : ∀ d : Dict, (∃ l, freeze_dict d = .ok l) ↔ MutuallyOrderable d := by
    intro d
    constructor
    · rintro ⟨l, hl⟩ k1 hk1 k2 hk2
      rcases List.mem_map.mp hk1 with ⟨p1, hp1, hq1⟩
      rcases List.mem_map.mp hk2 with ⟨p2, hp2, hq2⟩
      subst hq1; subst hq2
      exact sortItems_comparable d l hl p1 hp1 p2 hp2
    · intro hmo
      refine sortItems_isOk d ?_
      intro y hy z hz
      exact hmo y.1 (List.mem_map.mpr ⟨y, hy, rfl⟩) z.1 (List.mem_map.mpr ⟨z, hz, rfl⟩)
  refine ⟨hmain, ?_⟩
  intro d hno
  cases hf : freeze_dict d with
  | ok l => exact absurd ((hmain d).mp ⟨l, hf⟩) hno
  | error e => cases e; rfl

/-- C9: the key set of `deep_merge_dicts base override` is exactly the union
of the key sets of `base` and `override`, and the key set of `merge_dicts` is
exactly the union of its inputs' key sets: no input key is dropped and no
foreign key appears. -/
theorem c9_merge_key_sets :
    (∀ (base override : Dict) (k : Key),
      k ∈ dictKeys (deep_merge_dicts base override) ↔
        k ∈ dictKeys base ∨ k ∈ dictKeys override) ∧
    (∀ (ds : List Dict) (k : Key),
      k ∈ dictKeys (merge_dicts ds) ↔ ∃ d ∈ ds, k ∈ dictKeys d) := by
  constructor
  · intro base override k
    rw [deep_merge_dicts_eq_mergeRun, mem_keys_mergeRun, keys_deepCopyEntries]
  · intro ds k
    rw [show merge_dicts ds = ds.foldl dictUpdate [] from rfl, mem_keys_merge_foldl]
    simp [dictKeys]

/-- C10: `copy_dict_with_override base overrides` and
`merge_dicts [base, overrides]` build the same dictionary (for real
dictionaries, whose keys are unique; `copy_dict_with_override`'s keyword
arguments restrict the override keys to strings, so the overrides are given as
string-keyed pairs to both sides). -/
theorem c10_override_copy_equals_flat_merge (base : Dict)
    (overrides : List (String × Value)) (hnd : NodupKeys base) :
    copy_dict_with_override base overrides
      = merge_dicts [base, overrides.map (fun p => (Key.kStr p.1, p.2))] := by
  show dictUpdate base _ = dictUpdate (dictUpdate [] base) _
  rw [show dictUpdate [] base = base from by
    rw [dictUpdate_append base [] hnd (fun k _ => by simp [dictKeys])]
    simp]

/-- C2: a successful `deep_merge_dicts(base, override)` call mutates neither
argument — every value read from `base` or from `override` after the call (at
any fuel) equals its pre-call reading — and the result is a fresh structure,
not a view onto either input: no heap cell reachable from the result existed
before the call. -/
theorem c2_deep_merge_mutates_neither_argument (fuel : Nat) (h h' : Heap) (ab ao r : Nat)
    (hw : wfb h = true) (hab : domH h ab = true) (hao : domH h ao = true)
    (hex : deepMergeH fuel h ab ao = some (h', r)) :
    (∀ f, readValV f h' (.ref ab) = readValV f h (.ref ab)) ∧
    (∀ f, readValV f h' (.ref ao) = readValV f h (.ref ao)) ∧
    (∀ b, HReach h' (.ref r) b → domH h b = false) := by
  obtain ⟨g, w2, rfresh, rdom, rcpres⟩ := mergeH_inv fuel h ab ao h' r hw hex
  refine ⟨?_, ?_, ?_⟩
  · intro f
    exact readVal_growsFresh f h h' hw g (.ref ab)
      (fun a heq => by injection heq with heq; subst heq; exact hab)
  · intro f
    exact readVal_growsFresh f h h' hw g (.ref ao)
      (fun a heq => by injection heq with heq; subst heq; exact hao)
  · intro b hrch
    have hrc : RegionClosed h' h.next := rcpres h.next (le_refl _) (regionClosed_next hw)
    have hge : h.next ≤ b := hreach_region hrc hrch
      (fun a heq => by injection heq with heq; subst heq; exact rfresh)
    cases hdb : domH h b with
    | false => rfl
    | true => exact absurd (wfb_dom_lt hw hdb) (by omega)

/-- C5: a deep copy is fully independent of its source — making it leaves the
source's value unchanged, and storing into any cell reachable from the copy
leaves the source's value unchanged, because the copy shares no cell with the
source at any depth.  A shallow copy's fresh top cell holds the very same
member slots as the source's, so after mutating any pre-existing (nested)
cell, copy and source still read back equal — the mutation hits both — while
overwriting the copy's own top-level cell (adding, removing or reassigning
top-level keys) never changes the source.  The closed conjuncts exhibit an
actual change of the source's value caused by an append through the shallow
copy's shared nested list, and the unchanged reading through a deep copy. -/
theorem c5_copy_independence (h : Heap) (a : Nat) (ca : Cell)
    (hw : wfb h = true) (hla : lookupH h a = some ca) :
    (∀ fuel h' v', deepCopyV fuel h (.ref a) = some (h', v') →
      (∀ f, readValV f h' (.ref a) = readValV f h (.ref a)) ∧
      (∀ b c, HReach h' v' b →
        ∀ f, readValV f (storeH h' b c) (.ref a) = readValV f h' (.ref a))) ∧
    (∀ h' a', shallowCopyH h a = some (h', a') →
      lookupH h' a' = some ca ∧ lookupH h' a = some ca ∧
      (∀ b c, domH h b = true → b ≠ a →
        ∀ f, readValV f (storeH h' b c) (.ref a) = readValV f (storeH h' b c) (.ref a'))) ∧
    (∀ h' a', shallowCopyH h a = some (h', a') →
      ∀ c f, readValV f (storeH h' a' c) (.ref a) = readValV f h (.ref a)) ∧
    (readValV 3 (⟨[(0, Cell.dcell [(Key.kStr "nested", HVal.ref 1)]),
          (1, Cell.lcell [HVal.imm (Scalar.sInt 1)])], 2⟩ : Heap) (.ref 0)
        = some (.vDict [(Key.kStr "nested", .vList [.vInt 1])]) ∧
      shallowCopyH (⟨[(0, Cell.dcell [(Key.kStr "nested", HVal.ref 1)]),
          (1, Cell.lcell [HVal.imm (Scalar.sInt 1)])], 2⟩ : Heap) 0
        = some (⟨[(2, Cell.dcell [(Key.kStr "nested", HVal.ref 1)]),
            (0, Cell.dcell [(Key.kStr "nested", HVal.ref 1)]),
            (1, Cell.lcell [HVal.imm (Scalar.sInt 1)])], 3⟩, 2) ∧
      readValV 3 (storeH (⟨[(2, Cell.dcell [(Key.kStr "nested", HVal.ref 1)]),
            (0, Cell.dcell [(Key.kStr "nested", HVal.ref 1)]),
            (1, Cell.lcell [HVal.imm (Scalar.sInt 1)])], 3⟩ : Heap) 1
            (.lcell [HVal.imm (Scalar.sInt 1), HVal.imm (Scalar.sInt 3)])) (.ref 0)
        = some (.vDict [(Key.kStr "nested", .vList [.vInt 1, .vInt 3])])) := by
  have hda : domH h a = true := by unfold domH; rw [hla]; rfl
  have halt : a < h.next := wfb_dom_lt hw hda
  refine ⟨?_, ?_, ?_, by decide, by decide, by decide⟩
  · intro fuel h' v' hdc
    obtain ⟨g, w2, root, rcp⟩ := deepCopyV_inv fuel h (.ref a) h' v' hw hdc
    refine ⟨?_, ?_⟩
    · intro f
      exact readVal_growsFresh f h h' hw g _
        (fun a2 heq => by injection heq with heq; subst heq; exact hda)
    · intro b c hrch f
      have hrc : RegionClosed h' h.next := rcp h.next (le_refl _) (regionClosed_next hw)
      have hge : h.next ≤ b := hreach_region hrc hrch (fun a2 heq => (root a2 heq).1)
      have hnr : ¬ HReach h' (.ref a) b := by
        intro hr
        have h2 := (hreach_old hw g hr
          (fun a2 heq => by injection heq with heq; subst heq; exact hda)).2
        omega
      exact readVal_frame f h' b c (.ref a) hnr
  · intro h' a' hsc
    unfold shallowCopyH at hsc
    rw [hla] at hsc
    dsimp only at hsc
    injection hsc with hsc
    rw [Prod.ext_iff] at hsc
    obtain ⟨he1, he2⟩ := hsc
    subst he1; subst he2
    refine ⟨?_, ?_, ?_⟩
    · rw [show (allocH h ca).2 = h.next from rfl, lookupH_allocH, if_pos rfl]
    · rw [(growsFresh_alloc h ca).2 a halt]
      exact hla
    · intro b c hdb hba f
      have hblt := wfb_dom_lt hw hdb
      apply readVal_ref_congr
      rw [lookupH_storeH, lookupH_storeH, if_neg (fun hh => hba hh.symm),
        if_neg (show ¬ (allocH h ca).2 = b from by
          rw [show (allocH h ca).2 = h.next from rfl]; omega)]
      rw [(growsFresh_alloc h ca).2 a halt, hla,
        show (allocH h ca).2 = h.next from rfl, lookupH_allocH, if_pos rfl]
  · intro h' a' hsc
    unfold shallowCopyH at hsc
    rw [hla] at hsc
    dsimp only at hsc
    injection hsc with hsc
    rw [Prod.ext_iff] at hsc
    obtain ⟨he1, he2⟩ := hsc
    subst he1; subst he2
    intro c f
    have hnr : ¬ HReach (allocH h ca).1 (.ref a) (allocH h ca).2 := by
      intro hr
      have h2 := (hreach_old hw (growsFresh_alloc h ca) hr
        (fun a2 heq => by injection heq with heq; subst heq; exact hda)).2
      exact absurd h2 (lt_irrefl h.next)
    rw [readVal_frame f _ _ c _ hnr]
    exact readVal_growsFresh f h _ hw (growsFresh_alloc h ca) _
      (fun a2 heq => by injection heq with heq; subst heq; exact hda)

/-- C7: `copy_dict_with_override` maps every overridden key to the override's
value exactly as given (no deep copy of the values), maps every other key to
the base's value, and — at the heap level — writes only the freshly allocated
result cell: every pre-existing cell, in particular `base`, is untouched, and
the result is a new object.  The closed conjunct is the source docstring's
example. -/
theorem c7_override_copy :
    (∀ (original : Dict) (overrides : List (String × Value)),
      (overrides.map Prod.fst).Nodup →
      ∀ s v, (s, v) ∈ overrides →
        dictLookup (copy_dict_with_override original overrides) (Key.kStr s) = some v) ∧
    (∀ (original : Dict) (overrides : List (String × Value)) (k : Key),
      k ∉ overrides.map (fun p => Key.kStr p.1) →
      dictLookup (copy_dict_with_override original overrides) k = dictLookup original k) ∧
    (∀ (h : Heap) (a : Nat) (overrides : List (String × HVal)) (h' : Heap) (a' : Nat),
      wfb h = true → overrideCopyH h a overrides = some (h', a') →
      (∀ x, x < h.next → lookupH h' x = lookupH h x) ∧ domH h a' = false ∧
      (∀ f, readValV f h' (.ref a) = readValV f h (.ref a))) ∧
    copy_dict_with_override
        [(Key.kStr "host", Value.vStr "localhost"), (Key.kStr "port", Value.vInt 8080),
         (Key.kStr "debug", Value.vBool false)]
        [("debug", Value.vBool true), ("port", Value.vInt 3000)]
      = [(Key.kStr "host", Value.vStr "localhost"), (Key.kStr "port", Value.vInt 3000),
         (Key.kStr "debug", Value.vBool true)] := by
  have hmapnd : ∀ overrides : List (String × Value), (overrides.map Prod.fst).Nodup →
      ((overrides.map (fun p => (Key.kStr p.1, p.2))).map Prod.fst).Nodup := by
    intro overrides hnd
    rw [List.map_map]
    have hfe : (Prod.fst ∘ fun p : String × Value => (Key.kStr p.1, p.2))
        = (Key.kStr ∘ Prod.fst) := funext fun p => rfl
    rw [hfe, ← List.map_map]
    exact hnd.map (fun a b hab => by injection hab)
  refine ⟨?_, ?_, ?_, by decide⟩
  · intro original overrides hnd s v hm
    apply dictLookup_dictUpdate_mem
    · exact hmapnd overrides hnd
    · exact assocLookup_of_mem_nodup (List.mem_map.mpr ⟨(s, v), hm, rfl⟩)
        (hmapnd overrides hnd)
  · intro original overrides k hk
    apply dictLookup_dictUpdate_not_mem
    intro hmem
    apply hk
    rcases List.mem_map.mp hmem with ⟨p, hp, hq⟩
    rcases List.mem_map.mp hp with ⟨q, hq2, hq3⟩
    subst hq3
    exact List.mem_map.mpr ⟨q, hq2, hq⟩
  · intro h a overrides h' a' hw hex
    unfold overrideCopyH at hex
    cases hla2 : lookupH h a with
    | none => rw [hla2] at hex; dsimp only at hex; cases hex
    | some cc =>
      cases cc with
      | lcell l => rw [hla2] at hex; dsimp only at hex; cases hex
      | dcell l =>
        rw [hla2] at hex
        dsimp only at hex
        injection hex with hex
        rw [Prod.ext_iff] at hex
        obtain ⟨he1, he2⟩ := hex
        subst he1; subst he2
        have hda : domH h a = true := by unfold domH; rw [hla2]; rfl
        have hpres : ∀ (cX : Cell) (x : Nat), x < h.next →
            lookupH (storeH (allocH h (Cell.dcell l)).1 (allocH h (Cell.dcell l)).2 cX) x
              = lookupH h x := by
          intro cX x hx
          rw [lookupH_storeH,
            if_neg (show ¬ x = (allocH h (Cell.dcell l)).2 from by
              rw [show (allocH h (Cell.dcell l)).2 = h.next from rfl]; omega),
            lookupH_allocH, if_neg (show ¬ h.next = x by omega)]
        refine ⟨hpres _, ?_, ?_⟩
        · rw [show (allocH h (Cell.dcell l)).2 = h.next from rfl]
          cases hdn : domH h h.next with
          | false => rfl
          | true => exact absurd (wfb_dom_lt hw hdn) (by omega)
        · intro f
          refine readVal_growsFresh f h _ hw ⟨?_, hpres _⟩
            (.ref a) (fun a2 heq => by injection heq with heq; subst heq; exact hda)
          rw [show (storeH (allocH h (Cell.dcell l)).1 (allocH h (Cell.dcell l)).2 _).next
              = h.next + 1 from rfl]
          omega

/-- Witness for C2 at a concrete merge of two empty dicts on a two-cell heap. -/
theorem c2_witness :
    wfb (⟨[(0, Cell.dcell []), (1, Cell.dcell [])], 2⟩ : Heap) = true ∧
    deepMergeH 1 ⟨[(0, Cell.dcell []), (1, Cell.dcell [])], 2⟩ 0 1
      = some (⟨[(2, Cell.dcell []), (0, Cell.dcell []), (1, Cell.dcell [])], 3⟩, 2) ∧
    readValV 3 (⟨[(2, Cell.dcell []), (0, Cell.dcell []), (1, Cell.dcell [])], 3⟩ : Heap)
        (.ref 0)
      = readValV 3 (⟨[(0, Cell.dcell []), (1, Cell.dcell [])], 2⟩ : Heap) (.ref 0) :=
  ⟨by decide, by decide,
    (c2_deep_merge_mutates_neither_argument 1
      ⟨[(0, Cell.dcell []), (1, Cell.dcell [])], 2⟩
      ⟨[(2, Cell.dcell []), (0, Cell.dcell []), (1, Cell.dcell [])], 3⟩ 0 1 2
      (by decide) (by decide) (by decide) (by decide)).1 3⟩

/-- Witness for C3 at the spec's own example pair of dicts. -/
theorem c3_witness :
    NodupKeys [(Key.kStr "a", Value.vInt 1), (Key.kStr "b", Value.vInt 2)] ∧
    NodupKeys [(Key.kStr "b", Value.vInt 2), (Key.kStr "a", Value.vInt 1)] ∧
    freeze_dict [(Key.kStr "a", Value.vInt 1), (Key.kStr "b", Value.vInt 2)]
      = .ok [(Key.kStr "a", Value.vInt 1), (Key.kStr "b", Value.vInt 2)] ∧
    freeze_dict [(Key.kStr "b", Value.vInt 2), (Key.kStr "a", Value.vInt 1)]
      = .ok [(Key.kStr "a", Value.vInt 1), (Key.kStr "b", Value.vInt 2)] ∧
    freeze_dict [(Key.kStr "a", Value.vInt 1), (Key.kStr "b", Value.vInt 2)]
      = freeze_dict [(Key.kStr "b", Value.vInt 2), (Key.kStr "a", Value.vInt 1)] :=
  ⟨by decide, by decide, by decide, by decide,
    (c3_freeze_equality_characterizes_pairs
      [(Key.kStr "a", Value.vInt 1), (Key.kStr "b", Value.vInt 2)]
      [(Key.kStr "b", Value.vInt 2), (Key.kStr "a", Value.vInt 1)]
      [(Key.kStr "a", Value.vInt 1), (Key.kStr "b", Value.vInt 2)]
      [(Key.kStr "a", Value.vInt 1), (Key.kStr "b", Value.vInt 2)]
      (by decide) (by decide) (by decide) (by decide)).2.1⟩

/-- Witness for C5 at the concrete heap holding a dict with one nested list. -/
theorem c5_witness :
    wfb (⟨[(0, Cell.dcell [(Key.kStr "nested", HVal.ref 1)]),
        (1, Cell.lcell [HVal.imm (Scalar.sInt 1)])], 2⟩ : Heap) = true ∧
    lookupH (⟨[(0, Cell.dcell [(Key.kStr "nested", HVal.ref 1)]),
        (1, Cell.lcell [HVal.imm (Scalar.sInt 1)])], 2⟩ : Heap) 0
      = some (Cell.dcell [(Key.kStr "nested", HVal.ref 1)]) ∧
    shallowCopyH (⟨[(0, Cell.dcell [(Key.kStr "nested", HVal.ref 1)]),
        (1, Cell.lcell [HVal.imm (Scalar.sInt 1)])], 2⟩ : Heap) 0
      = some (⟨[(2, Cell.dcell [(Key.kStr "nested", HVal.ref 1)]),
          (0, Cell.dcell [(Key.kStr "nested", HVal.ref 1)]),
          (1, Cell.lcell [HVal.imm (Scalar.sInt 1)])], 3⟩, 2) :=
  ⟨by decide, by decide,
    (c5_copy_independence ⟨[(0, Cell.dcell [(Key.kStr "nested", HVal.ref 1)]),
        (1, Cell.lcell [HVal.imm (Scalar.sInt 1)])], 2⟩ 0
      (Cell.dcell [(Key.kStr "nested", HVal.ref 1)])
      (by decide) (by decide)).2.2.2.2.1⟩

/-- Witness for C10 at a concrete base dict and override list. -/
theorem c10_witness :
    copy_dict_with_override [(Key.kStr "a", Value.vInt 1)] [("b", Value.vInt 2)]
      = merge_dicts [[(Key.kStr "a", Value.vInt 1)],
          [("b", Value.vInt 2)].map (fun p => (Key.kStr p.1, p.2))] :=
  c10_override_copy_equals_flat_merge [(Key.kStr "a", Value.vInt 1)]
    [("b", Value.vInt 2)] (by decide)

end CopyUtils
